import Mathlib

/-!
# Backfiller (clustering/immediate_consistency/backfiller.cc)

A shallow embedding of the backfill source: the per-client state, the four
mailbox handlers (`on_begin_session`, `on_end_session`, `on_ack_items`,
`on_pre_items`) and one iteration of the session pump (`session_t::run`) with
its local `producer_t` and `consumer_t`.

Conventions.
* A failed `guarantee` or `rassert` is `none`; a handler or pump iteration that
  runs to its end is `some` of the new state.
* `size_t` values are naturals reduced modulo `2 ^ 64`; `int64_t` values are
  integers, and a conversion from `size_t` goes through `to_int64`.
* The store (`send_backfill`) is external: its behaviour during one pump
  iteration is a finite list of calls it makes on the producer and the
  consumer, interleaved with `on_pre_items` deliveries that run while it
  yields.
-/

namespace Backfiller

/-! ## Machine integers -/

/-- Number of values of a 64-bit word. -/
def WORD : Nat := 2 ^ 64

/-- Conversion `static_cast<int64_t>(x)` of a `size_t` value: two's complement. -/
def to_int64 (n : Nat) : Int :=
  if n % WORD < 2 ^ 63 then ((n % WORD : Nat) : Int) else ((n % WORD : Nat) : Int) - (WORD : Int)

/-- Conversion of an `int64_t` to `size_t` (the usual arithmetic conversion in a
mixed `int64_t - size_t` expression). -/
def to_size_t (i : Int) : Nat := (i % (WORD : Int)).toNat

/-! ## Tuning constants -/

/-- Modelled from the spec: the constant `KILOBYTE` is declared outside this file;
the spec gives `ITEM_CHUNK_SIZE = 100 KiB`. -/
def KILOBYTE : Nat := 1024

/-- Modelled from the spec: the constant `MEGABYTE` is declared outside this file;
the spec gives `ITEM_PIPELINE_SIZE = 4 MiB`. -/
def MEGABYTE : Nat := 1024 * 1024

def ITEM_PIPELINE_SIZE : Nat := 4 * MEGABYTE

def ITEM_CHUNK_SIZE : Nat := 100 * KILOBYTE

/-! ## Keys, right bounds, regions -/

/-- Modelled from the spec: `key_range_t::right_bound_t` is declared outside this
file. The right end of a half-open key interval: a key, or the distinguished
end-of-key-space value that compares greater than any key. -/
inductive right_bound_t (K : Type) where
  | key (k : K)
  | unbounded
  deriving DecidableEq

namespace right_bound_t

variable {K : Type} [LinearOrder K]

/-- Order on right bounds: keys by the key order, `unbounded` above every key. -/
def leB : right_bound_t K → right_bound_t K → Bool
  | _, unbounded => true
  | unbounded, key _ => false
  | key a, key b => decide (a ≤ b)

instance : LE (right_bound_t K) := ⟨fun a b => leB a b = true⟩

instance : LT (right_bound_t K) := ⟨fun a b => leB a b = true ∧ leB b a = false⟩

instance decLE (a b : right_bound_t K) : Decidable (a ≤ b) :=
  inferInstanceAs (Decidable (leB a b = true))

instance decLT (a b : right_bound_t K) : Decidable (a < b) :=
  inferInstanceAs (Decidable (leB a b = true ∧ leB b a = false))

instance : LinearOrder (right_bound_t K) where
  le_refl a := show leB a a = true by cases a <;> simp [leB]
  le_trans a b c := fun (h1 : leB a b = true) (h2 : leB b c = true) =>
    show leB a c = true by
      cases a <;> cases b <;> cases c <;> simp_all [leB]
      exact le_trans h1 h2
  lt_iff_le_not_le a b :=
    show (leB a b = true ∧ leB b a = false) ↔ (leB a b = true ∧ ¬ leB b a = true) by
      simp only [Bool.not_eq_true]
  le_antisymm a b := fun (h1 : leB a b = true) (h2 : leB b a = true) => by
    cases a <;> cases b <;> simp_all [leB]
    exact le_antisymm h1 h2
  le_total a b := show leB a b = true ∨ leB b a = true by
    cases a <;> cases b <;> simp [leB]
    exact le_total _ _
  decidableLE := decLE
  decidableLT := decLT

end right_bound_t

/-- Modelled from the spec: `key_range_t` is declared outside this file. The
half-open key interval `[left, right)`. -/
structure key_range_t (K : Type) where
  left : K
  right : right_bound_t K
  deriving DecidableEq

/-- Modelled from the spec: `region_t` is declared outside this file. A hash range
`[beg, end)` together with a key range. -/
structure region_t (K : Type) where
  beg : Nat
  end_ : Nat
  inner : key_range_t K
  deriving DecidableEq

namespace key_range_t

variable {K : Type} [LinearOrder K]

/-- The interval `[left, right)` holds no key. -/
def is_empty (r : key_range_t K) : Bool := decide (r.right ≤ right_bound_t.key r.left)

/-- Membership of a key in `[left, right)`. -/
def contains_key (r : key_range_t K) (k : K) : Bool :=
  decide (r.left ≤ k) && decide (right_bound_t.key k < r.right)

end key_range_t

namespace region_t

variable {K : Type} [LinearOrder K]

/-- Membership of a point (hash value, key) in a region. -/
def contains (r : region_t K) (h : Nat) (k : K) : Bool :=
  decide (r.beg ≤ h) && decide (h < r.end_) && r.inner.contains_key k

end region_t

/-! ## Region maps, versions -/

/-- Modelled from the spec: `state_timestamp_t` is declared outside this file; a
totally ordered timestamp. -/
abbrev state_timestamp_t : Type := Nat

/-- Modelled from the spec: `version_t` is declared outside this file; a tag (the
branch) with a timestamp component. -/
structure version_t where
  branch : Nat
  timestamp : state_timestamp_t
  deriving DecidableEq

/-- Modelled from the spec: `region_map_t<T>` is declared outside this file. A
partition of a region into sub-regions each tagged with a `T`, given here by its
value at every point (hash value, key): `none` outside the domain. -/
def region_map_t (K T : Type) : Type := Nat → K → Option T

namespace region_map_t

variable {K : Type} [LinearOrder K] {T U : Type}

/-- The map with an empty domain (`region_map_t<T>::empty()`). -/
def empty : region_map_t K T := fun _ _ => none

/-- Intersection with a region (`mask`). -/
def mask (m : region_map_t K T) (r : region_t K) : region_map_t K T :=
  fun h k => if r.contains h k then m h k else none

/-- Union of two maps with disjoint domains (`concat`). -/
def concat (m o : region_map_t K T) : region_map_t K T :=
  fun h k => match m h k with
    | some v => some v
    | none => o h k

/-- Overwrite with the values of `o` wherever `o` is defined (`update`). -/
def update (m o : region_map_t K T) : region_map_t K T :=
  fun h k => match o h k with
    | some v => some v
    | none => m h k

/-- Pointwise transform (`region_map_transform`). -/
def transform (m : region_map_t K T) (f : T → U) : region_map_t K U :=
  fun h k => (m h k).map f

/-- The point lies in the domain of the map. -/
def defined_at (m : region_map_t K T) (h : Nat) (k : K) : Bool := (m h k).isSome

end region_map_t

/-! ## Items and item sequences -/

/-- Modelled from the spec: `backfill_item_t` and `backfill_pre_item_t` are declared
outside this file. What the backfiller uses of either: the key range covered, the
in-memory size in bytes, and the restriction of the record to a sub-range. -/
class backfill_item_like (K : Type) (X : Type) where
  get_range : X → key_range_t K
  get_mem_size : X → Nat
  mask_in_place : X → key_range_t K → X

/-- Modelled from the spec: `backfill_item_seq_t<X>` is declared outside this file.
An ordered list of records covering `[left_key, right_key)` of the hash range
`[beg_hash, end_hash)`, gaps between records being explicitly empty. -/
structure backfill_item_seq_t (K X : Type) where
  beg_hash : Nat
  end_hash : Nat
  left_key : right_bound_t K
  right_key : right_bound_t K
  items : List X
  deriving DecidableEq

namespace backfill_item_seq_t

variable {K : Type} [LinearOrder K] {X : Type} [backfill_item_like K X]

/-- Modelled from the spec: the constructor of an empty sequence with a
zero-width domain at `key`. -/
def init (beg_hash end_hash : Nat) (key : right_bound_t K) : backfill_item_seq_t K X :=
  { beg_hash := beg_hash, end_hash := end_hash, left_key := key, right_key := key, items := [] }

def get_left_key (s : backfill_item_seq_t K X) : right_bound_t K := s.left_key

def get_right_key (s : backfill_item_seq_t K X) : right_bound_t K := s.right_key

def get_beg_hash (s : backfill_item_seq_t K X) : Nat := s.beg_hash

def get_end_hash (s : backfill_item_seq_t K X) : Nat := s.end_hash

/-- Modelled from the spec: total in-memory size of the records, a `size_t`. -/
def get_mem_size (s : backfill_item_seq_t K X) : Nat :=
  (s.items.map (backfill_item_like.get_mem_size K)).sum % WORD

/-- Modelled from the spec: the sequence covers nothing. -/
def empty_domain (s : backfill_item_seq_t K X) : Bool := decide (s.left_key = s.right_key)

/-- Modelled from the spec: no records (the domain may still be non-empty). -/
def empty_of_items (s : backfill_item_seq_t K X) : Bool := s.items.isEmpty

/-- Modelled from the spec: the leftmost record. -/
def front (s : backfill_item_seq_t K X) : Option X := s.items.head?

/-- Modelled from the spec: move the leftmost record of `s` to the right end of
`other`; undefined (`none`) when `s` holds no record. Returns `(s, other)`. -/
def pop_front_into (s other : backfill_item_seq_t K X) :
    Option (backfill_item_seq_t K X × backfill_item_seq_t K X) :=
  match s.items with
  | [] => none
  | x :: rest =>
    let r := (backfill_item_like.get_range x : key_range_t K).right
    some ({ s with left_key := r, items := rest },
          { other with right_key := r, items := other.items ++ [x] })

/-- Records of a list that survive a cut at `cut`: those entirely left of the cut
are dropped, one that spans the cut is restricted to its part right of it. -/
def drop_to_key : List X → right_bound_t K → List X
  | [], _ => []
  | x :: rest, cut =>
    let r : key_range_t K := backfill_item_like.get_range x
    if r.right ≤ cut then drop_to_key rest cut
    else if cut ≤ right_bound_t.key r.left then x :: rest
    else match cut with
      | right_bound_t.key c =>
        backfill_item_like.mask_in_place x { left := c, right := r.right } :: rest
      | right_bound_t.unbounded => x :: rest

/-- Modelled from the spec: delete the part of the sequence left of `cut`. -/
def delete_to_key (s : backfill_item_seq_t K X) (cut : right_bound_t K) :
    backfill_item_seq_t K X :=
  { s with left_key := cut, items := drop_to_key s.items cut }

/-- Modelled from the spec: append a record at the right end. -/
def push_back (s : backfill_item_seq_t K X) (x : X) : backfill_item_seq_t K X :=
  { s with right_key := (backfill_item_like.get_range x : key_range_t K).right,
           items := s.items ++ [x] }

/-- Modelled from the spec: extend the domain to `bound` with an explicit gap. -/
def push_back_nothing (s : backfill_item_seq_t K X) (bound : right_bound_t K) :
    backfill_item_seq_t K X :=
  { s with right_key := bound }

/-- Modelled from the spec: append the adjacent sequence `other`. -/
def concat (s other : backfill_item_seq_t K X) : backfill_item_seq_t K X :=
  { s with right_key := other.right_key, items := s.items ++ other.items }

end backfill_item_seq_t

/-! ## Messages, session and client state -/

/-- Messages the backfiller sends to the backfillee, in the order of their write
tokens (`fifo_source.enter_write()`). -/
inductive message (K I : Type) where
  | intro_2 (common_version : region_map_t K state_timestamp_t)
  | items (metainfo : region_map_t K version_t) (chunk : backfill_item_seq_t K I)
  | ack_pre_items (mem_size : Nat)
  | ack_end_session

/-- State of `backfiller_t::client_t::session_t`. `pulse_when_pre_items_arrive` is
`none` when the `scoped_ptr_t<cond_t>` is empty and `some b` when it holds a
`cond_t` that is pulsed iff `b`. `interrupted` records that `run` has left its
loop through `interrupted_exc_t`. -/
structure session_t (K : Type) where
  threshold : right_bound_t K
  pulse_when_pre_items_arrive : Option Bool
  interrupted : Bool
  deriving DecidableEq

/-- State of `backfiller_t::client_t`. `item_throttler_acq` is the `count()` of the
session-scoped holder on the semaphore `item_throttler` (capacity
`ITEM_PIPELINE_SIZE`), an `int64_t` as the cast in `on_ack_items` shows; `sent` is the
log of messages sent so far. -/
structure client_t (K I P : Type) where
  full_region : region_t K
  common_version : region_map_t K state_timestamp_t
  pre_items : backfill_item_seq_t K P
  item_throttler_acq : Int
  current_session : Option (session_t K)
  sent : List (message K I)

/-- Result of a producer or consumer callback. -/
inductive continue_bool_t where
  | CONTINUE
  | ABORT
  deriving DecidableEq

section Code

variable {K : Type} [LinearOrder K] {I P : Type}
variable [backfill_item_like K I] [backfill_item_like K P]

/-- Constructor `client_t::client_t`. The common ancestor `common_version` of the two
parties' versions comes from the store metainfo and the branch history, both
outside this file; it is a parameter here. -/
def client_t.init (full_region : region_t K)
    (common_version : region_map_t K state_timestamp_t) : client_t K I P :=
  { full_region := full_region
    common_version := common_version
    pre_items := backfill_item_seq_t.init full_region.beg full_region.end_
      (right_bound_t.key full_region.inner.left)
    item_throttler_acq := 0
    current_session := none
    sent := [message.intro_2 common_version] }

/-- Constructor `session_t::session_t`. -/
def session_t.init (threshold : right_bound_t K) : session_t K :=
  { threshold := threshold, pulse_when_pre_items_arrive := none, interrupted := false }

/-- Method `session_t::on_pre_items`: pulse the condition if there is one. -/
def session_t.on_pre_items (s : session_t K) : session_t K :=
  match s.pulse_when_pre_items_arrive with
  | some _ => { s with pulse_when_pre_items_arrive := some true }
  | none => s

/-! ### Mailbox handlers (after the FIFO wait) -/

/-- Handler `client_t::on_begin_session`. -/
def client_t.on_begin_session (c : client_t K I P) (threshold : right_bound_t K) :
    Option (client_t K I P) :=
  if threshold ≤ c.pre_items.get_left_key then
    some { c with current_session := some (session_t.init threshold) }
  else none

/-- Handler `client_t::on_end_session`. -/
def client_t.on_end_session (c : client_t K I P) : Option (client_t K I P) :=
  if c.current_session.isSome then
    some { c with current_session := none, sent := c.sent ++ [message.ack_end_session] }
  else none

/-- Handler `client_t::on_ack_items`. The guarantee compares
`static_cast<int64_t>(mem_size)` with the `int64_t` count; the new count is the
`size_t` difference `count() - mem_size` converted back to `int64_t`. -/
def client_t.on_ack_items (c : client_t K I P) (mem_size : Nat) : Option (client_t K I P) :=
  if to_int64 mem_size ≤ c.item_throttler_acq then
    let new_count : Nat := (to_size_t c.item_throttler_acq + WORD - mem_size % WORD) % WORD
    some { c with item_throttler_acq := to_int64 new_count }
  else none

/-- Handler `client_t::on_pre_items`. -/
def client_t.on_pre_items (c : client_t K I P) (chunk : backfill_item_seq_t K P) :
    client_t K I P :=
  { c with pre_items := c.pre_items.concat chunk
           current_session := c.current_session.map session_t.on_pre_items }

/-! ### The pre-item producer -/

/-- State of the local class `producer_t`: the client's buffer `*pre_items`, the
buffer `temp_buf` of pre-items handed to the store, and the session's
`*pulse_when_pre_items_arrive`. -/
structure producer_t (K P : Type) where
  pre_items : backfill_item_seq_t K P
  temp_buf : backfill_item_seq_t K P
  pulse_when_pre_items_arrive : Option Bool

/-- Constructor `producer_t::producer_t`. -/
def producer_t.init (pre_items : backfill_item_seq_t K P) (pulse : Option Bool) :
    producer_t K P :=
  { pre_items := pre_items
    temp_buf := backfill_item_seq_t.init pre_items.get_beg_hash pre_items.get_end_hash
      pre_items.get_left_key
    pulse_when_pre_items_arrive := pulse }

/-- Destructor `producer_t::~producer_t`: the value left in `*pre_items`. -/
def producer_t.destroy (p : producer_t K P) : backfill_item_seq_t K P :=
  p.temp_buf.concat p.pre_items

/-- Method `producer_t::next_pre_item`. Returns the new state, `*next_out`,
`*edge_out` and the result. -/
def producer_t.next_pre_item (p : producer_t K P) :
    producer_t K P × Option P × Option (right_bound_t K) × continue_bool_t :=
  if !p.pre_items.empty_of_items then
    (p, p.pre_items.front, none, continue_bool_t.CONTINUE)
  else if !p.pre_items.empty_domain then
    let edge := p.pre_items.get_right_key
    ({ p with pre_items := p.pre_items.delete_to_key edge
              temp_buf := p.temp_buf.push_back_nothing edge },
      none, some edge, continue_bool_t.CONTINUE)
  else
    ({ p with pulse_when_pre_items_arrive := some false }, none, none, continue_bool_t.ABORT)

/-- Method `producer_t::release_pre_item`. -/
def producer_t.release_pre_item (p : producer_t K P) : Option (producer_t K P) :=
  match p.pre_items.pop_front_into p.temp_buf with
  | some (pre_items, temp_buf) => some { p with pre_items := pre_items, temp_buf := temp_buf }
  | none => none

/-! ### The item consumer -/

/-- State of the local class `consumer_t`: `*chunk` and `*metainfo`. -/
structure consumer_t (K I : Type) where
  chunk : backfill_item_seq_t K I
  metainfo : region_map_t K version_t

/-- Method `consumer_t::on_item`. The two `rassert`s are checked; `item_metainfo` is
taken already decoded (`to_version_map`). -/
def consumer_t.on_item (c : consumer_t K I) (item_metainfo : region_map_t K version_t)
    (item : I) : Option (consumer_t K I × continue_bool_t) :=
  let range : key_range_t K := backfill_item_like.get_range item
  if ¬ (c.chunk.get_right_key ≤ right_bound_t.key range.left) then none
  else if range.is_empty then none
  else match c.chunk.get_right_key with
    | right_bound_t.unbounded => none
    | right_bound_t.key rk =>
      let mask : region_t K :=
        { beg := c.chunk.get_beg_hash, end_ := c.chunk.get_end_hash,
          inner := { left := rk, right := range.right } }
      let metainfo := c.metainfo.concat (item_metainfo.mask mask)
      let chunk := c.chunk.push_back item
      some ({ chunk := chunk, metainfo := metainfo },
        if chunk.get_mem_size < ITEM_CHUNK_SIZE then continue_bool_t.CONTINUE
        else continue_bool_t.ABORT)

/-- Method `consumer_t::on_empty_range`. -/
def consumer_t.on_empty_range (c : consumer_t K I) (range_metainfo : region_map_t K version_t)
    (new_threshold : right_bound_t K) : Option (consumer_t K I × continue_bool_t) :=
  if ¬ (c.chunk.get_right_key ≤ new_threshold) then none
  else if c.chunk.get_right_key = new_threshold then some (c, continue_bool_t.CONTINUE)
  else match c.chunk.get_right_key with
    | right_bound_t.unbounded => none
    | right_bound_t.key rk =>
      let mask : region_t K :=
        { beg := c.chunk.get_beg_hash, end_ := c.chunk.get_end_hash,
          inner := { left := rk, right := new_threshold } }
      let metainfo := c.metainfo.concat (range_metainfo.mask mask)
      let chunk := c.chunk.push_back_nothing new_threshold
      some ({ chunk := chunk, metainfo := metainfo }, continue_bool_t.CONTINUE)

/-! ### The store's side of `send_backfill` -/

end Code

/-- One thing that happens while `store->send_backfill` runs: a call on the producer,
a call on the consumer, or (while the store yields) the delivery of a `pre_items`
message to `client_t::on_pre_items`. -/
inductive store_call (K I P : Type) where
  | next_pre_item
  | release_pre_item
  | on_item (item_metainfo : region_map_t K version_t) (item : I)
  | on_empty_range (range_metainfo : region_map_t K version_t)
      (new_threshold : right_bound_t K)
  | pre_items_arrive (chunk : backfill_item_seq_t K P)

/-- Behaviour of the store during one `send_backfill`: the calls it makes, and whether
it ends by throwing `interrupted_exc_t`. -/
structure store_run (K I P : Type) where
  calls : List (store_call K I P)
  interrupted : Bool

/-- The store view, as far as the backfiller sees it: what it does when asked to
backfill from `start_point`. -/
abbrev store_view_t (K I P : Type) : Type :=
  region_map_t K state_timestamp_t → store_run K I P

/-- The objects alive during `send_backfill`. `offered` records that the last
`next_pre_item` handed a pre-item to the store that it has not released yet. -/
structure backfill_frame (K I P : Type) where
  producer : producer_t K P
  consumer : consumer_t K I
  offered : Bool

section Code

variable {K : Type} [LinearOrder K] {I P : Type}
variable [backfill_item_like K I] [backfill_item_like K P]

/-- Effect of one store call on the frame, with the callback's result. A
`release_pre_item` without a pre-item on offer, and a consumer call that breaks an
assertion, are undefined. -/
def backfill_frame.step (fr : backfill_frame K I P) :
    store_call K I P → Option (backfill_frame K I P × continue_bool_t)
  | store_call.next_pre_item =>
    let r := fr.producer.next_pre_item
    some ({ fr with producer := r.1, offered := r.2.1.isSome }, r.2.2.2)
  | store_call.release_pre_item =>
    if fr.offered then
      match fr.producer.release_pre_item with
      | some p => some ({ fr with producer := p, offered := false }, continue_bool_t.CONTINUE)
      | none => none
    else none
  | store_call.on_item item_metainfo item =>
    match fr.consumer.on_item item_metainfo item with
    | some (c, r) => some ({ fr with consumer := c }, r)
    | none => none
  | store_call.on_empty_range range_metainfo new_threshold =>
    match fr.consumer.on_empty_range range_metainfo new_threshold with
    | some (c, r) => some ({ fr with consumer := c }, r)
    | none => none
  | store_call.pre_items_arrive chunk =>
    let pulse := match fr.producer.pulse_when_pre_items_arrive with
      | some _ => some true
      | none => none
    some ({ fr with producer :=
              { fr.producer with pre_items := fr.producer.pre_items.concat chunk
                                 pulse_when_pre_items_arrive := pulse } },
      continue_bool_t.CONTINUE)

/-- The store runs its calls in order and returns at the first `ABORT`. -/
def send_backfill (fr : backfill_frame K I P) :
    List (store_call K I P) → Option (backfill_frame K I P)
  | [] => some fr
  | call :: rest =>
    match fr.step call with
    | none => none
    | some (fr1, continue_bool_t.CONTINUE) => send_backfill fr1 rest
    | some (fr1, continue_bool_t.ABORT) => some fr1

/-- The objects constructed by one iteration of `session_t::run` before it calls the
store: the empty `chunk` at the threshold, the empty `metainfo`, the producer over the
client's `pre_items` and the consumer over `chunk` and `metainfo`. -/
def backfill_frame.init (c : client_t K I P) (s : session_t K) : backfill_frame K I P :=
  { producer := producer_t.init c.pre_items s.pulse_when_pre_items_arrive
    consumer := { chunk := backfill_item_seq_t.init c.full_region.beg c.full_region.end_
                    s.threshold
                  metainfo := region_map_t.empty }
    offered := false }

/-- Modelled from the spec: `new_semaphore_t` is declared outside this file. An
acquisition of `count` is granted when the window, of which `held` is reserved, has
`count` free: `held + count` does not exceed the capacity. -/
def acquisition_granted (capacity held count : Int) : Bool := decide (held + count ≤ capacity)

/-- Modelled from the spec: `new_semaphore_acq_t::transfer_in` is declared outside this
file. The reservation `other` is transferred into the holder, whose count grows by it. -/
def transfer_in (holder other : Int) : Int := holder + other

/-- The `size_t` difference `old_size - new_size`. -/
def size_sub (old_size new_size : Nat) : Nat := (old_size % WORD + WORD - new_size % WORD) % WORD

/-- The region still to be backfilled: `full_region` with its left edge moved to the
threshold's key. -/
def subregion (full_region : region_t K) (threshold_key : K) : region_t K :=
  { full_region with inner := { full_region.inner with left := threshold_key } }

/-- The argument `parent->common_version.mask(subregion)` of `send_backfill`. -/
def start_point (c : client_t K I P) (threshold_key : K) : region_map_t K state_timestamp_t :=
  c.common_version.mask (subregion c.full_region threshold_key)

/-- The body of the `while` loop of `session_t::run`, from the construction of
`chunk` (the semaphore acquisition has been granted) to the test of
`pulse_when_pre_items_arrive`. `threshold.key()` is undefined for an unbounded
threshold. On a commit the local acquisition is changed to `chunk.get_mem_size()`, a
`size_t` converted to `int64_t`, and transferred into `item_throttler_acq`; then the
guarantee `chunk.get_left_key() == threshold` is checked. -/
def session_t.run_iteration (c : client_t K I P) (s : session_t K)
    (store : store_view_t K I P) : Option (client_t K I P) :=
  match s.threshold with
  | right_bound_t.unbounded => none
  | right_bound_t.key threshold_key =>
    let run := store (start_point c threshold_key)
    match send_backfill (backfill_frame.init c s) run.calls with
    | none => none
    | some fr =>
      let pre_items := fr.producer.destroy
      let pulse := fr.producer.pulse_when_pre_items_arrive
      let chunk := fr.consumer.chunk
      let metainfo := fr.consumer.metainfo
      if run.interrupted then
        some { c with pre_items := pre_items
                      current_session := some { s with pulse_when_pre_items_arrive := pulse
                                                       interrupted := true } }
      else if chunk.get_left_key ≠ chunk.get_right_key then
        let count := transfer_in c.item_throttler_acq (to_int64 chunk.get_mem_size)
        if chunk.get_left_key = s.threshold then
          let threshold := chunk.get_right_key
          let common_version :=
            c.common_version.update (metainfo.transform (fun v => v.timestamp))
          let old_size := pre_items.get_mem_size
          let pre_items2 := pre_items.delete_to_key threshold
          let new_size := pre_items2.get_mem_size
          some { c with
            common_version := common_version
            pre_items := pre_items2
            item_throttler_acq := count
            current_session := some { s with threshold := threshold
                                             pulse_when_pre_items_arrive := pulse }
            sent := c.sent ++ [message.items metainfo chunk,
                               message.ack_pre_items (size_sub old_size new_size)] }
        else none
      else
        some { c with pre_items := pre_items
                      current_session := some { s with pulse_when_pre_items_arrive := pulse } }

/-- The pump can start an iteration: it has not been interrupted, it is not parked on
an unpulsed `pulse_when_pre_items_arrive`, the loop condition holds and the
semaphore has room for `ITEM_CHUNK_SIZE`. -/
def pump_ready (c : client_t K I P) (s : session_t K) : Bool :=
  !s.interrupted && decide (s.pulse_when_pre_items_arrive ≠ some false)
    && decide (s.threshold ≠ c.full_region.inner.right)
    && acquisition_granted (ITEM_PIPELINE_SIZE : Int) c.item_throttler_acq
      (ITEM_CHUNK_SIZE : Int)

/-- The pump of the current session makes one iteration if it can; before it, a
pulsed `pulse_when_pre_items_arrive` left by the previous iteration is reset. -/
def client_t.pump (c : client_t K I P) (store : store_view_t K I P) :
    Option (client_t K I P) :=
  match c.current_session with
  | none => some c
  | some s =>
    if pump_ready c s then
      session_t.run_iteration c { s with pulse_when_pre_items_arrive := none } store
    else some c

end Code

/-- What can happen to a client: the four messages of the backfillee, and one
iteration of the pump. -/
inductive event (K I P : Type) where
  | begin_session (threshold : right_bound_t K)
  | end_session
  | pre_items (chunk : backfill_item_seq_t K P)
  | ack_items (mem_size : Nat)
  | pump (store : store_view_t K I P)

section Code

variable {K : Type} [LinearOrder K] {I P : Type}
variable [backfill_item_like K I] [backfill_item_like K P]

/-- Effect of one event on the client; `none` when a guarantee or an assertion fails. -/
def client_t.step (c : client_t K I P) : event K I P → Option (client_t K I P)
  | event.begin_session threshold => c.on_begin_session threshold
  | event.end_session => c.on_end_session
  | event.pre_items chunk => some (c.on_pre_items chunk)
  | event.ack_items mem_size => c.on_ack_items mem_size
  | event.pump store => c.pump store

/-- Effect of a sequence of events. -/
def client_t.run (c : client_t K I P) : List (event K I P) → Option (client_t K I P)
  | [] => some c
  | e :: rest =>
    match c.step e with
    | none => none
    | some c1 => client_t.run c1 rest

end Code

/-! ## Vocabulary of the statements -/

section Vocabulary

variable {K : Type} [LinearOrder K] {I P : Type}
variable [backfill_item_like K I] [backfill_item_like K P]

/-- The store's obligation at one call: `release_pre_item` only for a pre-item on
offer, and the ordering assertions of the consumer. -/
def backfill_frame.call_ok (fr : backfill_frame K I P) : store_call K I P → Bool
  | store_call.next_pre_item => true
  | store_call.release_pre_item => fr.offered
  | store_call.on_item _ item =>
    decide (fr.consumer.chunk.get_right_key ≤
        right_bound_t.key (backfill_item_like.get_range item : key_range_t K).left)
      && !(backfill_item_like.get_range item : key_range_t K).is_empty
  | store_call.on_empty_range _ new_threshold =>
    decide (fr.consumer.chunk.get_right_key ≤ new_threshold)
  | store_call.pre_items_arrive _ => true

/-- Every call the store makes before it returns meets its obligation. -/
def calls_ok (fr : backfill_frame K I P) : List (store_call K I P) → Bool
  | [] => true
  | call :: rest =>
    fr.call_ok call &&
      match fr.step call with
      | some (fr1, continue_bool_t.CONTINUE) => calls_ok fr1 rest
      | some (_, continue_bool_t.ABORT) => true
      | none => false

/-- The `pre_items` chunk delivered by a call, if it is a delivery. -/
def store_call.delivered : store_call K I P → List (backfill_item_seq_t K P)
  | store_call.pre_items_arrive chunk => [chunk]
  | _ => []

/-- The `pre_items` chunks delivered to `on_pre_items` while the store runs, in order. -/
def arrivals (fr : backfill_frame K I P) :
    List (store_call K I P) → List (backfill_item_seq_t K P)
  | [] => []
  | call :: rest =>
    match fr.step call with
    | some (fr1, continue_bool_t.CONTINUE) => call.delivered ++ arrivals fr1 rest
    | _ => []

/-- A sequence followed by the chunks appended to it. -/
def concat_all (s : backfill_item_seq_t K P) (chunks : List (backfill_item_seq_t K P)) :
    backfill_item_seq_t K P :=
  chunks.foldl backfill_item_seq_t.concat s

/-- What every consumer call preserves of the chunk: its hash range and left key; the
right key never moves left. -/
def chunk_extends (a b : backfill_item_seq_t K I) : Prop :=
  b.beg_hash = a.beg_hash ∧ b.end_hash = a.end_hash ∧ b.left_key = a.left_key ∧
    a.right_key ≤ b.right_key

/-- The call stays left of `bound`: an item ends at or before it, an empty range is
reported up to it at most. -/
def store_call.within (bound : right_bound_t K) : store_call K I P → Prop
  | store_call.on_item _ item =>
    (backfill_item_like.get_range item : key_range_t K).right ≤ bound
  | store_call.on_empty_range _ new_threshold => new_threshold ≤ bound
  | _ => True

/-- The event is a pump iteration only with a store that stays left of `bound`. -/
def event.within (bound : right_bound_t K) : event K I P → Prop
  | event.pump store => ∀ start_point, ∀ call ∈ (store start_point).calls, call.within bound
  | _ => True

/-- The thresholds of the current session after each event of a run, in order. -/
def threshold_log (c : client_t K I P) : List (event K I P) → List (right_bound_t K)
  | [] => []
  | e :: rest =>
    match c.step e with
    | none => []
    | some c1 =>
      (match c1.current_session with
        | some s => [s.threshold]
        | none => []) ++ threshold_log c1 rest

/-- The relation between the threshold, the left key of `pre_items` and the right
bound of the region that the client keeps: the threshold of the current session is at
or left of `pre_items.get_left_key()`, which is at or left of
`full_region.inner.right`. -/
def client_t.threshold_inv (c : client_t K I P) : Prop :=
  c.pre_items.get_left_key ≤ c.full_region.inner.right ∧
    ∀ s, c.current_session = some s → s.threshold ≤ c.pre_items.get_left_key

/-- Sum of `chunk.get_mem_size()` over the chunks sent on the items mailbox. -/
def items_sent_size : List (message K I) → Int
  | [] => 0
  | message.items _ chunk :: rest => (chunk.get_mem_size : Int) + items_sent_size rest
  | _ :: rest => items_sent_size rest

/-- Sum of the sizes acknowledged by the `ack_items` messages of a run. -/
def acked_size : List (event K I P) → Int
  | [] => 0
  | event.ack_items mem_size :: rest => (mem_size : Int) + acked_size rest
  | _ :: rest => acked_size rest

/-- The call does not hand over an item larger than `S` bytes. -/
def store_call.item_size_le (S : Nat) : store_call K I P → Prop
  | store_call.on_item _ item => backfill_item_like.get_mem_size K item ≤ S
  | _ => True

/-- The event is, in the state `c`, an acknowledgement of at most what is in flight, or
a pump iteration with a store whose items are at most `S` bytes each (or neither). -/
def event.fair (S : Nat) (c : client_t K I P) : event K I P → Prop
  | event.ack_items mem_size => (mem_size : Int) ≤ c.item_throttler_acq
  | event.pump store =>
    ∀ start_point, ∀ call ∈ (store start_point).calls, call.item_size_le S
  | _ => True

/-- Every event of the run is fair in the state it meets. -/
def fair_run (S : Nat) (c : client_t K I P) : List (event K I P) → Prop
  | [] => True
  | e :: rest =>
    e.fair S c ∧
      match c.step e with
      | some c1 => fair_run S c1 rest
      | none => True

/-- The chunks sent on the items mailbox, in order. -/
def chunks_sent : List (message K I) → List (backfill_item_seq_t K I)
  | [] => []
  | message.items _ chunk :: rest => chunk :: chunks_sent rest
  | _ :: rest => chunks_sent rest

/-- The point (hash value, key) lies in the region of the sequence: the hash range
`[beg_hash, end_hash)` and the key range `[left_key, right_key)`. -/
def backfill_item_seq_t.covers (chunk : backfill_item_seq_t K I) (h : Nat) (k : K) : Bool :=
  decide (chunk.beg_hash ≤ h) && decide (h < chunk.end_hash)
    && decide (chunk.left_key ≤ right_bound_t.key k)
    && decide (right_bound_t.key k < chunk.right_key)

/-- The metainfo handed to the consumer is defined on the whole region the consumer
masks it with: the chunk's hash range, from the chunk's right key to `right`. -/
def consumer_t.covered_by (c : consumer_t K I) (metainfo : region_map_t K version_t)
    (right : right_bound_t K) : Prop :=
  ∀ rk, c.chunk.get_right_key = right_bound_t.key rk → ∀ h k,
    region_t.contains
      { beg := c.chunk.get_beg_hash, end_ := c.chunk.get_end_hash,
        inner := { left := rk, right := right } } h k = true →
    (metainfo h k).isSome = true

/-- The metainfo of a consumer call covers the region it is masked with. -/
def backfill_frame.call_covered (fr : backfill_frame K I P) : store_call K I P → Prop
  | store_call.on_item item_metainfo item =>
    fr.consumer.covered_by item_metainfo (backfill_item_like.get_range item : key_range_t K).right
  | store_call.on_empty_range range_metainfo new_threshold =>
    fr.consumer.covered_by range_metainfo new_threshold
  | _ => True

/-- Every consumer call the store makes before it returns comes with metainfo that
covers the region it is masked with. -/
def calls_covered (fr : backfill_frame K I P) : List (store_call K I P) → Prop
  | [] => True
  | call :: rest =>
    fr.call_covered call ∧
      match fr.step call with
      | some (fr1, continue_bool_t.CONTINUE) => calls_covered fr1 rest
      | _ => True

/-- The accumulated metainfo is defined exactly on the region of the chunk, and the
chunk's keys are in order. -/
def metainfo_matches (c : consumer_t K I) : Prop :=
  c.chunk.left_key ≤ c.chunk.right_key ∧
    ∀ h k, (c.metainfo h k).isSome = true ↔ c.chunk.covers h k = true

end Vocabulary

/-! ## Concrete instances used to evaluate the code -/

/-- A record with an explicit key range and size, over natural-number keys. -/
structure sample_item_t where
  range : key_range_t Nat
  mem_size : Nat
  deriving DecidableEq

instance : backfill_item_like Nat sample_item_t where
  get_range x := x.range
  get_mem_size x := x.mem_size
  mask_in_place x r := { x with range := r }

/-- The region `[0, 2^64) x [0, +inf)` over natural-number keys. -/
def sample_region : region_t Nat :=
  { beg := 0, end_ := WORD, inner := { left := 0, right := right_bound_t.unbounded } }

/-- A freshly constructed client for `sample_region` with nothing in common. -/
def sample_client : client_t Nat sample_item_t sample_item_t :=
  client_t.init sample_region region_map_t.empty

/-- A version at timestamp `7` everywhere. -/
def sample_metainfo : region_map_t Nat version_t := fun _ _ => some { branch := 0, timestamp := 7 }

/-- Pre-items of a backfillee that holds the keys `[2, 4)`: the whole key space with
one pre-item. -/
def sample_pre_items : backfill_item_seq_t Nat sample_item_t :=
  { beg_hash := 0, end_hash := WORD, left_key := right_bound_t.key 0,
    right_key := right_bound_t.unbounded,
    items := [{ range := { left := 2, right := right_bound_t.key 4 }, mem_size := 16 }] }

/-- The fresh client after the delivery of `sample_pre_items`. -/
def sample_client_hinted : client_t Nat sample_item_t sample_item_t :=
  sample_client.on_pre_items sample_pre_items

/-- A session begun at key `0`. -/
def sample_session : session_t Nat := session_t.init (right_bound_t.key 0)

/-- A store that looks at the first pre-item, ships one item `[0, 1)` of 50 bytes,
skips the pre-item and reports `[1, 5)` empty, then returns. -/
def sample_store : store_view_t Nat sample_item_t sample_item_t := fun _ =>
  { calls := [store_call.next_pre_item,
      store_call.on_item sample_metainfo
        { range := { left := 0, right := right_bound_t.key 1 }, mem_size := 50 },
      store_call.release_pre_item,
      store_call.next_pre_item,
      store_call.on_empty_range sample_metainfo (right_bound_t.key 5)],
    interrupted := false }

/-- A store that consumes the pre-item and the rest of the hinted range, during which
a further `pre_items` message with no pre-items arrives, and is then interrupted. -/
def sample_store_cancelled : store_view_t Nat sample_item_t sample_item_t := fun _ =>
  { calls := [store_call.next_pre_item,
      store_call.release_pre_item,
      store_call.pre_items_arrive
        { beg_hash := 0, end_hash := WORD, left_key := right_bound_t.unbounded,
          right_key := right_bound_t.unbounded, items := [] },
      store_call.next_pre_item,
      store_call.on_empty_range sample_metainfo (right_bound_t.key 3)],
    interrupted := true }

/-- A backfill in two sessions: the hints arrive, a session begins at key `0` and
ships the chunk `[0, 5)`, the session is ended, and a new one begins at `threshold`. -/
def sample_resume (threshold : Nat) : List (event Nat sample_item_t sample_item_t) :=
  [event.pre_items sample_pre_items,
   event.begin_session (right_bound_t.key 0),
   event.pump sample_store,
   event.end_session,
   event.begin_session (right_bound_t.key threshold)]

/-- A store that ships a single item `[0, 1)` of 5 MiB. -/
def sample_store_big : store_view_t Nat sample_item_t sample_item_t := fun _ =>
  { calls := [store_call.next_pre_item,
      store_call.on_item sample_metainfo
        { range := { left := 0, right := right_bound_t.key 1 }, mem_size := 5 * MEGABYTE }],
    interrupted := false }

/-- The hints arrive, a session begins at key `0`, and the pump ships what
`sample_store_big` hands over. -/
def sample_big_run : List (event Nat sample_item_t sample_item_t) :=
  [event.pre_items sample_pre_items,
   event.begin_session (right_bound_t.key 0),
   event.pump sample_store_big]

/-- The run of `sample_resume`'s first session followed by the acknowledgement of the
50 bytes shipped. -/
def sample_acked_run : List (event Nat sample_item_t sample_item_t) :=
  [event.pre_items sample_pre_items,
   event.begin_session (right_bound_t.key 0),
   event.pump sample_store,
   event.ack_items 50]

/-- The client after `sample_resume 5`: the chunk `[0, 5)` has been shipped in a first
session and a second session has begun at key `5`. -/
def sample_client_resumed : client_t Nat sample_item_t sample_item_t :=
  (sample_client.run (sample_resume 5)).getD sample_client

/-- A store that ships the item `[0, 1)` with a metainfo that is defined nowhere. -/
def sample_store_uncovered : store_view_t Nat sample_item_t sample_item_t := fun _ =>
  { calls := [store_call.next_pre_item,
      store_call.on_item region_map_t.empty
        { range := { left := 0, right := right_bound_t.key 1 }, mem_size := 50 }],
    interrupted := false }

/-- The frame in which `sample_store_uncovered` returns. -/
def sample_frame_uncovered : backfill_frame Nat sample_item_t sample_item_t :=
  (send_backfill (backfill_frame.init sample_client_hinted sample_session)
    (sample_store_uncovered (start_point sample_client_hinted 0)).calls).getD
    (backfill_frame.init sample_client_hinted sample_session)

/-- Pre-items of a backfillee that holds the keys `[2, 4)` and `[6, 8)`: the whole key
space with two pre-items, of 16 and 24 bytes. -/
def sample_pre_items_two : backfill_item_seq_t Nat sample_item_t :=
  { beg_hash := 0, end_hash := WORD, left_key := right_bound_t.key 0,
    right_key := right_bound_t.unbounded,
    items := [{ range := { left := 2, right := right_bound_t.key 4 }, mem_size := 16 },
              { range := { left := 6, right := right_bound_t.key 8 }, mem_size := 24 }] }

/-- The fresh client after the delivery of `sample_pre_items_two`. -/
def sample_client_hinted_two : client_t Nat sample_item_t sample_item_t :=
  sample_client.on_pre_items sample_pre_items_two

/-- The frame in which `sample_store_cancelled` is interrupted. -/
def sample_frame_cancelled : backfill_frame Nat sample_item_t sample_item_t :=
  (send_backfill (backfill_frame.init sample_client_hinted sample_session)
    (sample_store_cancelled (start_point sample_client_hinted 0)).calls).getD
    (backfill_frame.init sample_client_hinted sample_session)

/-- The client after the iteration interrupted in `sample_store_cancelled`. -/
def sample_client_cancelled : client_t Nat sample_item_t sample_item_t :=
  (session_t.run_iteration sample_client_hinted sample_session sample_store_cancelled).getD
    sample_client

/-- Pre-items that cover only the keys `[0, 10)`, with one pre-item. -/
def sample_pre_items_short : backfill_item_seq_t Nat sample_item_t :=
  { beg_hash := 0, end_hash := WORD, left_key := right_bound_t.key 0,
    right_key := right_bound_t.key 10,
    items := [{ range := { left := 2, right := right_bound_t.key 4 }, mem_size := 16 }] }

/-- The fresh client after the delivery of `sample_pre_items_short`. -/
def sample_client_short : client_t Nat sample_item_t sample_item_t :=
  sample_client.on_pre_items sample_pre_items_short

/-- A store that calls neither the producer nor the consumer; while it runs, the
`pre_items` chunk for the keys `[10, +inf)` is delivered. -/
def sample_store_idle : store_view_t Nat sample_item_t sample_item_t := fun _ =>
  { calls := [store_call.pre_items_arrive
        { beg_hash := 0, end_hash := WORD, left_key := right_bound_t.key 10,
          right_key := right_bound_t.unbounded, items := [] }],
    interrupted := false }

/-- The frame in which `sample_store_idle` returns. -/
def sample_frame_idle : backfill_frame Nat sample_item_t sample_item_t :=
  (send_backfill (backfill_frame.init sample_client_short sample_session)
    (sample_store_idle (start_point sample_client_short 0)).calls).getD
    (backfill_frame.init sample_client_short sample_session)

/-- The client after the iteration with `sample_store_idle`. -/
def sample_client_idle : client_t Nat sample_item_t sample_item_t :=
  (session_t.run_iteration sample_client_short sample_session sample_store_idle).getD
    sample_client

/-! # Theorems -/

section Order

variable {K : Type} [LinearOrder K]

theorem right_bound_t.le_def (a b : right_bound_t K) : a ≤ b ↔ right_bound_t.leB a b = true :=
  Iff.rfl

theorem right_bound_t.key_le_key (a b : K) :
    (right_bound_t.key a : right_bound_t K) ≤ right_bound_t.key b ↔ a ≤ b := by
  simp [right_bound_t.le_def, right_bound_t.leB]

theorem right_bound_t.key_lt_key (a b : K) :
    (right_bound_t.key a : right_bound_t K) < right_bound_t.key b ↔ a < b := by
  rw [lt_iff_not_le, lt_iff_not_le, right_bound_t.key_le_key]

theorem right_bound_t.le_unbounded (a : right_bound_t K) : a ≤ right_bound_t.unbounded := by
  cases a <;> simp [right_bound_t.le_def, right_bound_t.leB]

theorem right_bound_t.key_lt_unbounded (a : K) :
    (right_bound_t.key a : right_bound_t K) < right_bound_t.unbounded := by
  rw [lt_iff_not_le]
  simp [right_bound_t.le_def, right_bound_t.leB]

theorem right_bound_t.unbounded_le_iff (a : right_bound_t K) :
    right_bound_t.unbounded ≤ a ↔ a = right_bound_t.unbounded := by
  cases a <;> simp [right_bound_t.le_def, right_bound_t.leB]

end Order

section Handlers

variable {K : Type} [LinearOrder K] {I P : Type}

/-- C2. `on_begin_session(t)` fails its guarantee exactly when
`t > pre_items.get_left_key()`; otherwise it installs a fresh session whose threshold
is `t` and changes nothing else: `pre_items`, `common_version`, the in-flight count,
the region and the messages sent stay as they were. -/
theorem on_begin_session_spec (c : client_t K I P) (t : right_bound_t K) :
    (c.on_begin_session t = none ↔ c.pre_items.get_left_key < t) ∧
    (c.on_begin_session t ≠ none ↔ t ≤ c.pre_items.get_left_key) ∧
    (c.on_begin_session t ≠ none →
      c.on_begin_session t = some { c with current_session := some (session_t.init t) }) ∧
    (session_t.init t).threshold = t := by
  refine ⟨?_, ?_, ?_, rfl⟩ <;> unfold client_t.on_begin_session
  all_goals
    by_cases h : t ≤ c.pre_items.get_left_key
    · simp [h, not_lt.mpr h]
    · simp [h, not_le.mp h]

end Handlers

/-- Evaluation of C2 on a fresh client of `sample_region` (left key `0`):
`begin_session(0)` is accepted and `begin_session(1)` is fatal. -/
theorem on_begin_session_spec_witness :
    (sample_client.on_begin_session (right_bound_t.key 1) = none) ∧
    (sample_client.on_begin_session (right_bound_t.key 0) =
        some { sample_client with
          current_session := some (session_t.init (right_bound_t.key 0)) }) :=
  ⟨(on_begin_session_spec sample_client (right_bound_t.key 1)).1.mpr (by decide),
   (on_begin_session_spec sample_client (right_bound_t.key 0)).2.2.1
     ((on_begin_session_spec sample_client (right_bound_t.key 0)).2.1.mpr (by decide))⟩

/-- C1 (evaluation at the failing input). On a fresh client (in-flight count `0`),
`on_ack_items(2^64 - 1)` passes the guarantee, because
`static_cast<int64_t>(2^64 - 1) = -1 <= 0`, and the in-flight count becomes `1`:
an acknowledgement larger than what is in flight is accepted and changes the count. -/
theorem on_ack_items_accepts_oversized :
    sample_client.item_throttler_acq = 0 ∧
    ((2 ^ 64 - 1 : Nat) : Int) > sample_client.item_throttler_acq ∧
    to_int64 (2 ^ 64 - 1) = -1 ∧
    (sample_client.on_ack_items (2 ^ 64 - 1)).map (fun c => c.item_throttler_acq) = some 1 := by
  refine ⟨rfl, by decide, by decide, ?_⟩
  decide

section Producer

variable {K : Type} [LinearOrder K] {I P : Type}
variable [backfill_item_like K I] [backfill_item_like K P]

omit [LinearOrder K] [backfill_item_like K P] in
theorem producer_init_destroy (pre_items : backfill_item_seq_t K P) (pulse : Option Bool) :
    (producer_t.init pre_items pulse).destroy = pre_items := by
  cases pre_items
  simp [producer_t.init, producer_t.destroy, backfill_item_seq_t.concat,
    backfill_item_seq_t.init, backfill_item_seq_t.get_beg_hash,
    backfill_item_seq_t.get_end_hash, backfill_item_seq_t.get_left_key]

theorem next_pre_item_destroy (p : producer_t K P) :
    p.next_pre_item.1.destroy = p.destroy := by
  unfold producer_t.next_pre_item
  by_cases h1 : p.pre_items.empty_of_items = true
  · by_cases h2 : p.pre_items.empty_domain = true
    · simp [h1, h2, producer_t.destroy]
    · have hnil : p.pre_items.items = [] := by
        simpa [backfill_item_seq_t.empty_of_items] using h1
      simp [h1, h2, producer_t.destroy, backfill_item_seq_t.concat,
        backfill_item_seq_t.delete_to_key, backfill_item_seq_t.push_back_nothing,
        backfill_item_seq_t.drop_to_key, hnil]
  · simp [h1]

omit [LinearOrder K] in
theorem release_pre_item_destroy (p p1 : producer_t K P)
    (h : p.release_pre_item = some p1) : p1.destroy = p.destroy := by
  unfold producer_t.release_pre_item backfill_item_seq_t.pop_front_into at h
  cases hi : p.pre_items.items with
  | nil => simp [hi] at h
  | cons x rest =>
    simp only [hi, Option.some.injEq] at h
    subst h
    simp [producer_t.destroy, backfill_item_seq_t.concat, hi]

theorem step_destroy (fr fr1 : backfill_frame K I P) (call : store_call K I P)
    (r : continue_bool_t) (h : fr.step call = some (fr1, r)) :
    fr1.producer.destroy = concat_all fr.producer.destroy call.delivered := by
  cases call with
  | next_pre_item =>
    simp only [backfill_frame.step, Option.some.injEq, Prod.mk.injEq] at h
    rw [← h.1]
    exact next_pre_item_destroy fr.producer
  | release_pre_item =>
    simp only [backfill_frame.step] at h
    split at h
    · cases hp : fr.producer.release_pre_item with
      | none => simp [hp] at h
      | some p =>
        simp only [hp, Option.some.injEq, Prod.mk.injEq] at h
        rw [← h.1]
        exact release_pre_item_destroy fr.producer p hp
    · simp at h
  | on_item mi item =>
    simp only [backfill_frame.step] at h
    cases hc : fr.consumer.on_item mi item with
    | none => simp [hc] at h
    | some cr =>
      obtain ⟨c, r1⟩ := cr
      simp only [hc, Option.some.injEq, Prod.mk.injEq] at h
      rw [← h.1]
      rfl
  | on_empty_range mi b =>
    simp only [backfill_frame.step] at h
    cases hc : fr.consumer.on_empty_range mi b with
    | none => simp [hc] at h
    | some cr =>
      obtain ⟨c, r1⟩ := cr
      simp only [hc, Option.some.injEq, Prod.mk.injEq] at h
      rw [← h.1]
      rfl
  | pre_items_arrive chunk =>
    simp only [backfill_frame.step, Option.some.injEq, Prod.mk.injEq] at h
    rw [← h.1]
    simp [producer_t.destroy, backfill_item_seq_t.concat, concat_all,
      store_call.delivered]

theorem send_backfill_destroy (calls : List (store_call K I P)) :
    ∀ (fr fr1 : backfill_frame K I P), send_backfill fr calls = some fr1 →
      fr1.producer.destroy = concat_all fr.producer.destroy (arrivals fr calls) := by
  induction calls with
  | nil =>
    intro fr fr1 h
    simp only [send_backfill, Option.some.injEq] at h
    subst h
    simp [arrivals, concat_all]
  | cons call rest ih =>
    intro fr fr1 h
    simp only [send_backfill] at h
    cases hs : fr.step call with
    | none => simp [hs] at h
    | some res =>
      obtain ⟨fr2, r⟩ := res
      have hd := step_destroy fr fr2 call r hs
      cases r with
      | CONTINUE =>
        simp only [hs] at h
        rw [ih fr2 fr1 h, hd]
        simp [arrivals, concat_all, hs]
      | ABORT =>
        simp only [hs, Option.some.injEq] at h
        subst h
        rw [hd]
        cases call with
        | pre_items_arrive chunk =>
          simp [backfill_frame.step] at hs
        | _ => simp [arrivals, concat_all, hs, store_call.delivered]

theorem calls_ok_send_backfill (calls : List (store_call K I P)) :
    ∀ (fr : backfill_frame K I P), calls_ok fr calls = true →
      ∃ fr1, send_backfill fr calls = some fr1 := by
  induction calls with
  | nil => intro fr _; exact ⟨fr, rfl⟩
  | cons call rest ih =>
    intro fr h
    simp only [calls_ok, Bool.and_eq_true] at h
    simp only [send_backfill]
    cases hs : fr.step call with
    | none => simp [hs] at h
    | some res =>
      obtain ⟨fr2, r⟩ := res
      cases r with
      | CONTINUE =>
        simp only [hs] at h
        exact ih fr2 h.2
      | ABORT => exact ⟨fr2, rfl⟩

omit [LinearOrder K] [backfill_item_like K P] in
theorem concat_all_left_key (chunks : List (backfill_item_seq_t K P)) :
    ∀ (s : backfill_item_seq_t K P), (concat_all s chunks).left_key = s.left_key := by
  induction chunks with
  | nil => intro s; rfl
  | cons q rest ih =>
    intro s
    simp only [concat_all, List.foldl_cons] at ih ⊢
    rw [ih]
    rfl

end Producer

section Consumer

variable {K : Type} [LinearOrder K] {I P : Type}
variable [backfill_item_like K I] [backfill_item_like K P]

omit [backfill_item_like K I] in
theorem chunk_extends_refl (a : backfill_item_seq_t K I) : chunk_extends a a :=
  ⟨rfl, rfl, rfl, le_refl _⟩

omit [backfill_item_like K I] in
theorem chunk_extends_trans {a b d : backfill_item_seq_t K I}
    (h1 : chunk_extends a b) (h2 : chunk_extends b d) : chunk_extends a d :=
  ⟨h2.1.trans h1.1, h2.2.1.trans h1.2.1, h2.2.2.1.trans h1.2.2.1, le_trans h1.2.2.2 h2.2.2.2⟩

theorem on_item_extends (c c1 : consumer_t K I) (mi : region_map_t K version_t) (item : I)
    (r : continue_bool_t) (h : c.on_item mi item = some (c1, r)) :
    chunk_extends c.chunk c1.chunk := by
  unfold consumer_t.on_item at h
  simp only at h
  split at h
  · simp at h
  · rename_i h1
    split at h
    · simp at h
    · rename_i h2
      split at h
      · simp at h
      · rename_i rk hrk
        simp only [Option.some.injEq, Prod.mk.injEq] at h
        rw [← h.1]
        refine ⟨rfl, rfl, rfl, ?_⟩
        simp only [backfill_item_seq_t.push_back]
        have h1' : c.chunk.right_key ≤
            right_bound_t.key (backfill_item_like.get_range item : key_range_t K).left := by
          simpa [backfill_item_seq_t.get_right_key] using h1
        have h2' : right_bound_t.key (backfill_item_like.get_range item : key_range_t K).left <
            (backfill_item_like.get_range item : key_range_t K).right := by
          simpa [key_range_t.is_empty] using h2
        exact le_trans h1' (le_of_lt h2')

omit [backfill_item_like K I] in
theorem on_empty_range_extends (c c1 : consumer_t K I) (mi : region_map_t K version_t)
    (b : right_bound_t K) (r : continue_bool_t)
    (h : c.on_empty_range mi b = some (c1, r)) :
    chunk_extends c.chunk c1.chunk := by
  unfold consumer_t.on_empty_range at h
  split at h
  · simp at h
  · rename_i h1
    split at h
    · simp only [Option.some.injEq, Prod.mk.injEq] at h
      rw [← h.1]
      exact chunk_extends_refl _
    · split at h
      · simp at h
      · simp only [Option.some.injEq, Prod.mk.injEq] at h
        rw [← h.1]
        refine ⟨rfl, rfl, rfl, ?_⟩
        simpa [backfill_item_seq_t.push_back_nothing, backfill_item_seq_t.get_right_key]
          using h1

theorem step_extends (fr fr1 : backfill_frame K I P) (call : store_call K I P)
    (r : continue_bool_t) (h : fr.step call = some (fr1, r)) :
    chunk_extends fr.consumer.chunk fr1.consumer.chunk := by
  cases call with
  | next_pre_item =>
    simp only [backfill_frame.step, Option.some.injEq, Prod.mk.injEq] at h
    rw [← h.1]
    exact chunk_extends_refl _
  | release_pre_item =>
    simp only [backfill_frame.step] at h
    split at h
    · cases hp : fr.producer.release_pre_item with
      | none => simp [hp] at h
      | some p =>
        simp only [hp, Option.some.injEq, Prod.mk.injEq] at h
        rw [← h.1]
        exact chunk_extends_refl _
    · simp at h
  | on_item mi item =>
    simp only [backfill_frame.step] at h
    cases hc : fr.consumer.on_item mi item with
    | none => simp [hc] at h
    | some cr =>
      obtain ⟨c, r1⟩ := cr
      simp only [hc, Option.some.injEq, Prod.mk.injEq] at h
      rw [← h.1]
      exact on_item_extends _ _ _ _ _ hc
  | on_empty_range mi b =>
    simp only [backfill_frame.step] at h
    cases hc : fr.consumer.on_empty_range mi b with
    | none => simp [hc] at h
    | some cr =>
      obtain ⟨c, r1⟩ := cr
      simp only [hc, Option.some.injEq, Prod.mk.injEq] at h
      rw [← h.1]
      exact on_empty_range_extends _ _ _ _ _ hc
  | pre_items_arrive chunk =>
    simp only [backfill_frame.step, Option.some.injEq, Prod.mk.injEq] at h
    rw [← h.1]
    exact chunk_extends_refl _

theorem send_backfill_extends (calls : List (store_call K I P)) :
    ∀ (fr fr1 : backfill_frame K I P), send_backfill fr calls = some fr1 →
      chunk_extends fr.consumer.chunk fr1.consumer.chunk := by
  induction calls with
  | nil =>
    intro fr fr1 h
    simp only [send_backfill, Option.some.injEq] at h
    subst h
    exact chunk_extends_refl _
  | cons call rest ih =>
    intro fr fr1 h
    simp only [send_backfill] at h
    cases hs : fr.step call with
    | none => simp [hs] at h
    | some res =>
      obtain ⟨fr2, r⟩ := res
      have he := step_extends fr fr2 call r hs
      cases r with
      | CONTINUE =>
        simp only [hs] at h
        exact chunk_extends_trans he (ih fr2 fr1 h)
      | ABORT =>
        simp only [hs, Option.some.injEq] at h
        subst h
        exact he

end Consumer

section Iteration

variable {K : Type} [LinearOrder K] {I P : Type}
variable [backfill_item_like K I] [backfill_item_like K P]

omit [LinearOrder K] [backfill_item_like K I] [backfill_item_like K P] in
theorem frame_init_chunk (c : client_t K I P) (s : session_t K) :
    (backfill_frame.init c s).consumer.chunk.left_key = s.threshold ∧
    (backfill_frame.init c s).consumer.chunk.right_key = s.threshold ∧
    (backfill_frame.init c s).consumer.chunk.beg_hash = c.full_region.beg ∧
    (backfill_frame.init c s).consumer.chunk.end_hash = c.full_region.end_ ∧
    (backfill_frame.init c s).consumer.chunk.items = [] :=
  ⟨rfl, rfl, rfl, rfl, rfl⟩

omit [LinearOrder K] [backfill_item_like K I] [backfill_item_like K P] in
theorem frame_init_destroy (c : client_t K I P) (s : session_t K) :
    (backfill_frame.init c s).producer.destroy = c.pre_items :=
  producer_init_destroy c.pre_items s.pulse_when_pre_items_arrive

theorem send_backfill_frame (c : client_t K I P) (s : session_t K)
    (calls : List (store_call K I P)) (fr : backfill_frame K I P)
    (hfr : send_backfill (backfill_frame.init c s) calls = some fr) :
    fr.producer.destroy = concat_all c.pre_items (arrivals (backfill_frame.init c s) calls) ∧
    fr.consumer.chunk.left_key = s.threshold ∧
    s.threshold ≤ fr.consumer.chunk.right_key ∧
    fr.consumer.chunk.beg_hash = c.full_region.beg ∧
    fr.consumer.chunk.end_hash = c.full_region.end_ := by
  have hd := send_backfill_destroy calls _ _ hfr
  have he := send_backfill_extends calls _ _ hfr
  rw [frame_init_destroy] at hd
  obtain ⟨h1, h2, h3, h4⟩ := he
  exact ⟨hd, h3, h4, h1, h2⟩

/-- An iteration whose `send_backfill` is interrupted. -/
theorem run_iteration_interrupted (c : client_t K I P) (s : session_t K)
    (store : store_view_t K I P) (tk : K) (fr : backfill_frame K I P)
    (hth : s.threshold = right_bound_t.key tk)
    (hfr : send_backfill (backfill_frame.init c s) (store (start_point c tk)).calls = some fr)
    (hint : (store (start_point c tk)).interrupted = true) :
    session_t.run_iteration c s store =
      some { c with
        pre_items := concat_all c.pre_items
          (arrivals (backfill_frame.init c s) (store (start_point c tk)).calls)
        current_session := some { s with
          pulse_when_pre_items_arrive := fr.producer.pulse_when_pre_items_arrive
          interrupted := true } } := by
  have hd := (send_backfill_frame c s _ fr hfr).1
  unfold session_t.run_iteration
  simp only [hth] at hfr ⊢
  simp only [hfr, hint, if_true, hd]

/-- An iteration that ends with an empty chunk: nothing is sent. -/
theorem run_iteration_skip (c : client_t K I P) (s : session_t K)
    (store : store_view_t K I P) (tk : K) (fr : backfill_frame K I P)
    (hth : s.threshold = right_bound_t.key tk)
    (hfr : send_backfill (backfill_frame.init c s) (store (start_point c tk)).calls = some fr)
    (hint : (store (start_point c tk)).interrupted = false)
    (heq : fr.consumer.chunk.get_left_key = fr.consumer.chunk.get_right_key) :
    session_t.run_iteration c s store =
      some { c with
        pre_items := concat_all c.pre_items
          (arrivals (backfill_frame.init c s) (store (start_point c tk)).calls)
        current_session := some { s with
          pulse_when_pre_items_arrive := fr.producer.pulse_when_pre_items_arrive } } := by
  have hd := (send_backfill_frame c s _ fr hfr).1
  unfold session_t.run_iteration
  simp only [hth] at hfr ⊢
  simp [hfr, hint, hd, heq]

/-- An iteration that ends with a non-empty chunk: the chunk is committed. -/
theorem run_iteration_commit (c : client_t K I P) (s : session_t K)
    (store : store_view_t K I P) (tk : K) (fr : backfill_frame K I P)
    (hth : s.threshold = right_bound_t.key tk)
    (hfr : send_backfill (backfill_frame.init c s) (store (start_point c tk)).calls = some fr)
    (hint : (store (start_point c tk)).interrupted = false)
    (hne : fr.consumer.chunk.get_left_key ≠ fr.consumer.chunk.get_right_key) :
    session_t.run_iteration c s store =
      some { c with
        common_version :=
          c.common_version.update (fr.consumer.metainfo.transform (fun v => v.timestamp))
        pre_items := (concat_all c.pre_items
          (arrivals (backfill_frame.init c s) (store (start_point c tk)).calls)).delete_to_key
            fr.consumer.chunk.get_right_key
        item_throttler_acq := c.item_throttler_acq + to_int64 fr.consumer.chunk.get_mem_size
        current_session := some { s with
          threshold := fr.consumer.chunk.get_right_key
          pulse_when_pre_items_arrive := fr.producer.pulse_when_pre_items_arrive }
        sent := c.sent ++ [message.items fr.consumer.metainfo fr.consumer.chunk,
          message.ack_pre_items (size_sub
            (concat_all c.pre_items
              (arrivals (backfill_frame.init c s)
                (store (start_point c tk)).calls)).get_mem_size
            ((concat_all c.pre_items
              (arrivals (backfill_frame.init c s)
                (store (start_point c tk)).calls)).delete_to_key
                  fr.consumer.chunk.get_right_key).get_mem_size)] } := by
  obtain ⟨hd, hl, -, -, -⟩ := send_backfill_frame c s _ fr hfr
  have hl' : fr.consumer.chunk.get_left_key = right_bound_t.key tk := by
    rw [← hth]; exact hl
  have hne' : ¬ right_bound_t.key tk = fr.consumer.chunk.get_right_key := by
    rw [← hl']; exact hne
  unfold session_t.run_iteration
  simp only [hth] at hfr ⊢
  simp [hfr, hint, hd, hne', hl', transfer_in]

omit [LinearOrder K] [backfill_item_like K I] [backfill_item_like K P] in
theorem size_diff (a b : Nat) (ha : a < 2 ^ 64) (hb : b ≤ a) :
    (a + 2 ^ 64 - b) % 2 ^ 64 = a - b := by
  have h : a + 2 ^ 64 - b = (a - b) + 2 ^ 64 := by omega
  rw [h, Nat.add_mod_right]
  exact Nat.mod_eq_of_lt (by omega)

omit [LinearOrder K] in
theorem get_mem_size_lt (q : backfill_item_seq_t K P) : q.get_mem_size < 2 ^ 64 := by
  unfold backfill_item_seq_t.get_mem_size WORD
  exact Nat.mod_lt _ (by norm_num)

/-- C7 (amended). Every iteration of the pump, for a store that meets the producer's
and the consumer's obligations, returns. If `send_backfill` is not interrupted and the
chunk is non-trivial, exactly the `items` message followed by one `ack_pre_items` is
sent, the latter carrying the `size_t` difference of the size of `pre_items` before
the cut and its size after (their plain difference when the size after is not the
larger); the threshold becomes the chunk's right key, `common_version` is updated
with the timestamps of the chunk's metainfo, `pre_items` is cut at the new threshold
and the in-flight count grows by the chunk's size. If `send_backfill` is interrupted
or the chunk is trivial, nothing is sent and the threshold, `common_version` and the
in-flight count are as before; `pre_items` is what it was before the iteration
followed by the chunks that `on_pre_items` delivered during it, hence exactly as
before when none was delivered. -/
theorem pump_iteration_commits_iff (c : client_t K I P) (s : session_t K)
    (store : store_view_t K I P) (tk : K)
    (hth : s.threshold = right_bound_t.key tk)
    (hok : calls_ok (backfill_frame.init c s) (store (start_point c tk)).calls = true) :
    ∃ fr c1 pre_items,
      send_backfill (backfill_frame.init c s) (store (start_point c tk)).calls = some fr ∧
      session_t.run_iteration c s store = some c1 ∧
      pre_items = concat_all c.pre_items
        (arrivals (backfill_frame.init c s) (store (start_point c tk)).calls) ∧
      (arrivals (backfill_frame.init c s) (store (start_point c tk)).calls = [] →
        pre_items = c.pre_items) ∧
      ((store (start_point c tk)).interrupted = false →
        fr.consumer.chunk.get_left_key ≠ fr.consumer.chunk.get_right_key →
        c1.sent = c.sent ++ [message.items fr.consumer.metainfo fr.consumer.chunk,
          message.ack_pre_items ((pre_items.get_mem_size + 2 ^ 64 -
            (pre_items.delete_to_key fr.consumer.chunk.get_right_key).get_mem_size)
              % 2 ^ 64)] ∧
        ((pre_items.delete_to_key fr.consumer.chunk.get_right_key).get_mem_size
            ≤ pre_items.get_mem_size →
          c1.sent = c.sent ++ [message.items fr.consumer.metainfo fr.consumer.chunk,
            message.ack_pre_items (pre_items.get_mem_size -
              (pre_items.delete_to_key fr.consumer.chunk.get_right_key).get_mem_size)]) ∧
        c1.current_session.map (fun x => x.threshold) =
          some fr.consumer.chunk.get_right_key ∧
        c1.common_version =
          c.common_version.update (fr.consumer.metainfo.transform (fun v => v.timestamp)) ∧
        c1.pre_items = pre_items.delete_to_key fr.consumer.chunk.get_right_key ∧
        c1.item_throttler_acq =
          c.item_throttler_acq + to_int64 fr.consumer.chunk.get_mem_size) ∧
      (((store (start_point c tk)).interrupted = true ∨
          fr.consumer.chunk.get_left_key = fr.consumer.chunk.get_right_key) →
        c1.sent = c.sent ∧
        c1.current_session.map (fun x => x.threshold) = some s.threshold ∧
        c1.common_version = c.common_version ∧
        c1.pre_items = pre_items ∧
        c1.item_throttler_acq = c.item_throttler_acq) := by
  obtain ⟨fr, hfr⟩ := calls_ok_send_backfill _ _ hok
  have hnil : arrivals (backfill_frame.init c s) (store (start_point c tk)).calls = [] →
      concat_all c.pre_items
        (arrivals (backfill_frame.init c s) (store (start_point c tk)).calls) =
        c.pre_items := by
    intro h; rw [h]; rfl
  cases hint : (store (start_point c tk)).interrupted with
  | true =>
    refine ⟨fr, _, _, hfr, run_iteration_interrupted c s store tk fr hth hfr hint, rfl,
      hnil, ?_, ?_⟩
    · intro h; cases h
    · intro _; exact ⟨rfl, rfl, rfl, rfl, rfl⟩
  | false =>
    by_cases hne : fr.consumer.chunk.get_left_key = fr.consumer.chunk.get_right_key
    · refine ⟨fr, _, _, hfr, run_iteration_skip c s store tk fr hth hfr hint hne, rfl,
        hnil, ?_, ?_⟩
      · intro _ h; exact absurd hne h
      · intro _; exact ⟨rfl, rfl, rfl, rfl, rfl⟩
    · refine ⟨fr, _, _, hfr, run_iteration_commit c s store tk fr hth hfr hint hne, rfl,
        hnil, ?_, ?_⟩
      · intro _ _
        have h1 := get_mem_size_lt (concat_all c.pre_items
          (arrivals (backfill_frame.init c s) (store (start_point c tk)).calls))
        have h2 := get_mem_size_lt ((concat_all c.pre_items
          (arrivals (backfill_frame.init c s) (store (start_point c tk)).calls)).delete_to_key
            fr.consumer.chunk.get_right_key)
        have hsub : size_sub
            (concat_all c.pre_items
              (arrivals (backfill_frame.init c s)
                (store (start_point c tk)).calls)).get_mem_size
            ((concat_all c.pre_items
              (arrivals (backfill_frame.init c s)
                (store (start_point c tk)).calls)).delete_to_key
                  fr.consumer.chunk.get_right_key).get_mem_size =
            ((concat_all c.pre_items
              (arrivals (backfill_frame.init c s)
                (store (start_point c tk)).calls)).get_mem_size + 2 ^ 64 -
              ((concat_all c.pre_items
                (arrivals (backfill_frame.init c s)
                  (store (start_point c tk)).calls)).delete_to_key
                    fr.consumer.chunk.get_right_key).get_mem_size) % 2 ^ 64 := by
          unfold size_sub WORD
          rw [Nat.mod_eq_of_lt h1, Nat.mod_eq_of_lt h2]
        refine ⟨?_, ?_, rfl, rfl, rfl, rfl⟩
        · show c.sent ++ [_, message.ack_pre_items (size_sub _ _)] = _
          rw [hsub]
        · intro hle
          show c.sent ++ [_, message.ack_pre_items (size_sub _ _)] = _
          rw [hsub, size_diff _ _ h1 hle]
      · intro h
        rcases h with h | h
        · cases h
        · exact absurd h hne

end Iteration

theorem sample_frame_cancelled_run :
    send_backfill (backfill_frame.init sample_client_hinted sample_session)
      (sample_store_cancelled (start_point sample_client_hinted 0)).calls =
      some sample_frame_cancelled := rfl

theorem sample_client_cancelled_run :
    session_t.run_iteration sample_client_hinted sample_session sample_store_cancelled =
      some sample_client_cancelled := rfl

theorem sample_frame_idle_run :
    send_backfill (backfill_frame.init sample_client_short sample_session)
      (sample_store_idle (start_point sample_client_short 0)).calls =
      some sample_frame_idle := rfl

theorem sample_client_idle_run :
    session_t.run_iteration sample_client_short sample_session sample_store_idle =
      some sample_client_idle := rfl

/-- C7 (counterexample). First, the iteration with `sample_store_cancelled`: the store
meets its obligations and has built the non-trivial chunk `[0, 3)` when it is
interrupted, and no `items` message is sent, so "sent if and only if the chunk is
non-trivial" fails. Second, the iteration with `sample_store_idle`: the chunk is
trivial and nothing is sent, but `pre_items`, which covered `[0, 10)` before the
iteration, covers `[0, +inf)` after it, because a `pre_items` chunk was delivered
while the store ran. -/
theorem items_not_sent_when_interrupted :
    ¬ (∀ (store : store_view_t Nat sample_item_t sample_item_t)
        (fr : backfill_frame Nat sample_item_t sample_item_t)
        (c1 : client_t Nat sample_item_t sample_item_t),
        calls_ok (backfill_frame.init sample_client_hinted sample_session)
          (store (start_point sample_client_hinted 0)).calls = true →
        send_backfill (backfill_frame.init sample_client_hinted sample_session)
          (store (start_point sample_client_hinted 0)).calls = some fr →
        session_t.run_iteration sample_client_hinted sample_session store = some c1 →
        (chunks_sent c1.sent = chunks_sent sample_client_hinted.sent ++ [fr.consumer.chunk] ↔
          fr.consumer.chunk.get_left_key ≠ fr.consumer.chunk.get_right_key)) ∧
    ¬ (∀ (store : store_view_t Nat sample_item_t sample_item_t)
        (fr : backfill_frame Nat sample_item_t sample_item_t)
        (c1 : client_t Nat sample_item_t sample_item_t),
        calls_ok (backfill_frame.init sample_client_short sample_session)
          (store (start_point sample_client_short 0)).calls = true →
        send_backfill (backfill_frame.init sample_client_short sample_session)
          (store (start_point sample_client_short 0)).calls = some fr →
        session_t.run_iteration sample_client_short sample_session store = some c1 →
        fr.consumer.chunk.get_left_key = fr.consumer.chunk.get_right_key →
        c1.pre_items = sample_client_short.pre_items) := by
  constructor
  · intro h
    have h1 := h sample_store_cancelled sample_frame_cancelled sample_client_cancelled
      (by decide) sample_frame_cancelled_run sample_client_cancelled_run
    have h2 : sample_frame_cancelled.consumer.chunk.get_left_key ≠
        sample_frame_cancelled.consumer.chunk.get_right_key := by decide
    exact absurd (h1.mpr h2) (by decide)
  · intro h
    have h1 := h sample_store_idle sample_frame_idle sample_client_idle
      (by decide) sample_frame_idle_run sample_client_idle_run (by decide)
    exact absurd h1 (by decide)

/-- Evaluation of C7 (amended): with the pre-items `[2, 4)` (16 bytes) and `[6, 8)`
(24 bytes) held, `sample_store` builds the chunk `[0, 5)`; it is sent, followed by
the acknowledgement of `40 - 24 = 16` bytes, and `pre_items` is cut at key `5`, where
the pre-item `[6, 8)` remains. -/
theorem pump_iteration_commits_iff_witness :
    sample_session.threshold = right_bound_t.key 0 ∧
    calls_ok (backfill_frame.init sample_client_hinted_two sample_session)
      (sample_store (start_point sample_client_hinted_two 0)).calls = true ∧
    ∃ c1 metainfo chunk, session_t.run_iteration sample_client_hinted_two sample_session
        sample_store = some c1 ∧
      c1.sent = sample_client_hinted_two.sent ++
        [message.items metainfo chunk, message.ack_pre_items 16] ∧
      chunk.left_key = right_bound_t.key 0 ∧ chunk.right_key = right_bound_t.key 5 ∧
      c1.pre_items.left_key = right_bound_t.key 5 ∧
      c1.pre_items.items =
        [{ range := { left := 6, right := right_bound_t.key 8 }, mem_size := 24 }] ∧
      c1.item_throttler_acq = 50 :=
  ⟨rfl, by decide,
    match pump_iteration_commits_iff sample_client_hinted_two sample_session
      sample_store 0 rfl (by decide) with
    | ⟨fr, c1, pre_items, h1, h2, h3, _, h4, _⟩ => by
      have hfr : fr.consumer.chunk.get_left_key = right_bound_t.key 0 ∧
          fr.consumer.chunk.get_right_key = right_bound_t.key 5 ∧
          fr.consumer.chunk.get_mem_size = 50 ∧
          pre_items = sample_pre_items_two := by
        refine ⟨?_, ?_, ?_, ?_⟩
        · have := Option.some.inj (h1.symm.trans rfl)
          rw [this]; rfl
        · have := Option.some.inj (h1.symm.trans rfl)
          rw [this]; rfl
        · have := Option.some.inj (h1.symm.trans rfl)
          rw [this]; rfl
        · rw [h3]; decide
      obtain ⟨hl, hr, hsz, hp⟩ := hfr
      have hne : fr.consumer.chunk.get_left_key ≠ fr.consumer.chunk.get_right_key := by
        rw [hl, hr]; decide
      obtain ⟨-, hs, -, -, hpre, hcount⟩ := h4 rfl hne
      refine ⟨c1, fr.consumer.metainfo, fr.consumer.chunk, h2, ?_, hl, hr, ?_, ?_, ?_⟩
      · rw [hs (by rw [hp, hr]; decide), hp, hr]; rfl
      · rw [hpre, hp, hr]; rfl
      · rw [hpre, hp, hr]; rfl
      · rw [hcount, hsz]; rfl⟩

section Invariant

variable {K : Type} [LinearOrder K] {I P : Type}
variable [backfill_item_like K I] [backfill_item_like K P]

theorem run_iteration_some (c c1 : client_t K I P) (s : session_t K)
    (store : store_view_t K I P) (h : session_t.run_iteration c s store = some c1) :
    ∃ tk fr, s.threshold = right_bound_t.key tk ∧
      send_backfill (backfill_frame.init c s) (store (start_point c tk)).calls = some fr := by
  unfold session_t.run_iteration at h
  cases hth : s.threshold with
  | unbounded => simp [hth] at h
  | key tk =>
    simp only [hth] at h
    cases hfr : send_backfill (backfill_frame.init c s) (store (start_point c tk)).calls with
    | none => simp [hfr] at h
    | some fr => exact ⟨tk, fr, rfl, hfr⟩

/-- The three ways an iteration can end. -/
theorem run_iteration_cases (c c1 : client_t K I P) (s : session_t K)
    (store : store_view_t K I P) (h : session_t.run_iteration c s store = some c1) :
    ∃ tk fr pre_items, s.threshold = right_bound_t.key tk ∧
      send_backfill (backfill_frame.init c s) (store (start_point c tk)).calls = some fr ∧
      pre_items = concat_all c.pre_items
        (arrivals (backfill_frame.init c s) (store (start_point c tk)).calls) ∧
      ((c1 = { c with
          pre_items := pre_items
          current_session := some { s with
            pulse_when_pre_items_arrive := fr.producer.pulse_when_pre_items_arrive
            interrupted := true } }) ∨
       (c1 = { c with
          pre_items := pre_items
          current_session := some { s with
            pulse_when_pre_items_arrive := fr.producer.pulse_when_pre_items_arrive } }) ∨
       (fr.consumer.chunk.get_left_key ≠ fr.consumer.chunk.get_right_key ∧
        c1 = { c with
          common_version :=
            c.common_version.update (fr.consumer.metainfo.transform (fun v => v.timestamp))
          pre_items := pre_items.delete_to_key fr.consumer.chunk.get_right_key
          item_throttler_acq := c.item_throttler_acq + to_int64 fr.consumer.chunk.get_mem_size
          current_session := some { s with
            threshold := fr.consumer.chunk.get_right_key
            pulse_when_pre_items_arrive := fr.producer.pulse_when_pre_items_arrive }
          sent := c.sent ++ [message.items fr.consumer.metainfo fr.consumer.chunk,
            message.ack_pre_items (size_sub pre_items.get_mem_size
              (pre_items.delete_to_key fr.consumer.chunk.get_right_key).get_mem_size)] })) := by
  obtain ⟨tk, fr, hth, hfr⟩ := run_iteration_some c c1 s store h
  refine ⟨tk, fr, _, hth, hfr, rfl, ?_⟩
  cases hint : (store (start_point c tk)).interrupted with
  | true =>
    left
    rw [run_iteration_interrupted c s store tk fr hth hfr hint] at h
    exact (Option.some.inj h).symm
  | false =>
    by_cases heq : fr.consumer.chunk.get_left_key = fr.consumer.chunk.get_right_key
    · right; left
      rw [run_iteration_skip c s store tk fr hth hfr hint heq] at h
      exact (Option.some.inj h).symm
    · right; right
      rw [run_iteration_commit c s store tk fr hth hfr hint heq] at h
      exact ⟨heq, (Option.some.inj h).symm⟩

theorem step_within (bound : right_bound_t K) (fr fr1 : backfill_frame K I P)
    (call : store_call K I P) (r : continue_bool_t) (h : fr.step call = some (fr1, r))
    (hw : call.within bound) (h0 : fr.consumer.chunk.right_key ≤ bound) :
    fr1.consumer.chunk.right_key ≤ bound := by
  cases call with
  | next_pre_item =>
    simp only [backfill_frame.step, Option.some.injEq, Prod.mk.injEq] at h
    rw [← h.1]; exact h0
  | release_pre_item =>
    simp only [backfill_frame.step] at h
    split at h
    · cases hp : fr.producer.release_pre_item with
      | none => simp [hp] at h
      | some p =>
        simp only [hp, Option.some.injEq, Prod.mk.injEq] at h
        rw [← h.1]; exact h0
    · simp at h
  | on_item mi item =>
    simp only [backfill_frame.step] at h
    cases hc : fr.consumer.on_item mi item with
    | none => simp [hc] at h
    | some cr =>
      obtain ⟨c, r1⟩ := cr
      simp only [hc, Option.some.injEq, Prod.mk.injEq] at h
      rw [← h.1]
      unfold consumer_t.on_item at hc
      simp only at hc
      split at hc
      · simp at hc
      · split at hc
        · simp at hc
        · split at hc
          · simp at hc
          · simp only [Option.some.injEq, Prod.mk.injEq] at hc
            rw [← hc.1]
            exact hw
  | on_empty_range mi b =>
    simp only [backfill_frame.step] at h
    cases hc : fr.consumer.on_empty_range mi b with
    | none => simp [hc] at h
    | some cr =>
      obtain ⟨c, r1⟩ := cr
      simp only [hc, Option.some.injEq, Prod.mk.injEq] at h
      rw [← h.1]
      unfold consumer_t.on_empty_range at hc
      split at hc
      · simp at hc
      · split at hc
        · simp only [Option.some.injEq, Prod.mk.injEq] at hc
          rw [← hc.1]; exact h0
        · split at hc
          · simp at hc
          · simp only [Option.some.injEq, Prod.mk.injEq] at hc
            rw [← hc.1]
            exact hw
  | pre_items_arrive chunk =>
    simp only [backfill_frame.step, Option.some.injEq, Prod.mk.injEq] at h
    rw [← h.1]; exact h0

theorem send_backfill_within (bound : right_bound_t K) (calls : List (store_call K I P)) :
    ∀ (fr fr1 : backfill_frame K I P), send_backfill fr calls = some fr1 →
      (∀ call ∈ calls, call.within bound) → fr.consumer.chunk.right_key ≤ bound →
      fr1.consumer.chunk.right_key ≤ bound := by
  induction calls with
  | nil =>
    intro fr fr1 h _ h0
    simp only [send_backfill, Option.some.injEq] at h
    subst h
    exact h0
  | cons call rest ih =>
    intro fr fr1 h hw h0
    simp only [send_backfill] at h
    cases hs : fr.step call with
    | none => simp [hs] at h
    | some res =>
      obtain ⟨fr2, r⟩ := res
      have h2 := step_within bound fr fr2 call r hs (hw call (List.mem_cons_self _ _)) h0
      cases r with
      | CONTINUE =>
        simp only [hs] at h
        exact ih fr2 fr1 h (fun x hx => hw x (List.mem_cons_of_mem _ hx)) h2
      | ABORT =>
        simp only [hs, Option.some.injEq] at h
        subst h
        exact h2

theorem pump_cases (c c1 : client_t K I P) (store : store_view_t K I P)
    (h : c.pump store = some c1) :
    c1 = c ∨ ∃ s, c.current_session = some s ∧ pump_ready c s = true ∧
      session_t.run_iteration c { s with pulse_when_pre_items_arrive := none } store =
        some c1 := by
  unfold client_t.pump at h
  cases hs : c.current_session with
  | none =>
    simp only [hs, Option.some.injEq] at h
    exact Or.inl h.symm
  | some s =>
    simp only [hs] at h
    by_cases hr : pump_ready c s = true
    · simp only [hr, if_true] at h
      exact Or.inr ⟨s, rfl, hr, h⟩
    · simp only [hr, Bool.false_eq_true, if_false, Option.some.injEq] at h
      exact Or.inl h.symm

theorem step_full_region (c c1 : client_t K I P) (e : event K I P)
    (h : c.step e = some c1) : c1.full_region = c.full_region := by
  cases e with
  | begin_session t =>
    simp only [client_t.step, client_t.on_begin_session] at h
    split at h
    · rw [← Option.some.inj h]
    · simp at h
  | end_session =>
    simp only [client_t.step, client_t.on_end_session] at h
    split at h
    · rw [← Option.some.inj h]
    · simp at h
  | pre_items chunk =>
    simp only [client_t.step, Option.some.injEq] at h
    rw [← h]; rfl
  | ack_items n =>
    simp only [client_t.step, client_t.on_ack_items] at h
    split at h
    · rw [← Option.some.inj h]
    · simp at h
  | pump store =>
    simp only [client_t.step] at h
    rcases pump_cases c c1 store h with h1 | ⟨s, -, -, h1⟩
    · rw [h1]
    · obtain ⟨tk, fr, pre, -, -, -, h2 | h2 | ⟨-, h2⟩⟩ := run_iteration_cases _ _ _ _ h1 <;>
        rw [h2]

theorem step_threshold_inv (c c1 : client_t K I P) (e : event K I P)
    (hinv : c.threshold_inv) (hw : e.within c.full_region.inner.right)
    (h : c.step e = some c1) : c1.threshold_inv := by
  obtain ⟨hl, hs⟩ := hinv
  cases e with
  | begin_session t =>
    simp only [client_t.step, client_t.on_begin_session] at h
    split at h
    · rename_i ht
      rw [← Option.some.inj h]
      refine ⟨hl, ?_⟩
      intro s1 hs1
      simp only [Option.some.injEq] at hs1
      rw [← hs1]
      exact ht
    · simp at h
  | end_session =>
    simp only [client_t.step, client_t.on_end_session] at h
    split at h
    · rw [← Option.some.inj h]
      exact ⟨hl, fun s1 hs1 => by simp at hs1⟩
    · simp at h
  | pre_items chunk =>
    simp only [client_t.step, Option.some.injEq] at h
    rw [← h]
    refine ⟨hl, ?_⟩
    intro s1 hs1
    simp only [client_t.on_pre_items, Option.map_eq_some'] at hs1
    obtain ⟨s0, hs0, rfl⟩ := hs1
    have := hs s0 hs0
    unfold session_t.on_pre_items
    split <;> exact this
  | ack_items n =>
    simp only [client_t.step, client_t.on_ack_items] at h
    split at h
    · rw [← Option.some.inj h]
      exact ⟨hl, hs⟩
    · simp at h
  | pump store =>
    simp only [client_t.step] at h
    rcases pump_cases c c1 store h with h1 | ⟨s, hcs, -, h1⟩
    · rw [h1]; exact ⟨hl, hs⟩
    · have hth := hs s hcs
      obtain ⟨tk, fr, pre, -, hfr, hpre, h2⟩ := run_iteration_cases _ _ _ _ h1
      have hleft : pre.get_left_key = c.pre_items.get_left_key := by
        rw [hpre]; exact concat_all_left_key _ _
      rcases h2 with h2 | h2 | ⟨-, h2⟩
      · rw [h2]
        refine ⟨by simpa [hleft] using hl, ?_⟩
        intro s1 hs1
        simp only [Option.some.injEq] at hs1
        rw [← hs1]
        simpa [hleft] using hth
      · rw [h2]
        refine ⟨by simpa [hleft] using hl, ?_⟩
        intro s1 hs1
        simp only [Option.some.injEq] at hs1
        rw [← hs1]
        simpa [hleft] using hth
      · rw [h2]
        have hb : fr.consumer.chunk.right_key ≤ c.full_region.inner.right := by
          refine send_backfill_within _ _ _ _ hfr (hw _) ?_
          exact le_trans hth hl
        refine ⟨hb, ?_⟩
        intro s1 hs1
        simp only [Option.some.injEq] at hs1
        rw [← hs1]
        exact le_refl _

theorem run_threshold_inv (events : List (event K I P)) :
    ∀ (c c1 : client_t K I P), c.threshold_inv →
      (∀ e ∈ events, e.within c.full_region.inner.right) →
      c.run events = some c1 → c1.full_region = c.full_region ∧ c1.threshold_inv := by
  induction events with
  | nil =>
    intro c c1 hinv _ h
    simp only [client_t.run, Option.some.injEq] at h
    subst h
    exact ⟨rfl, hinv⟩
  | cons e rest ih =>
    intro c c1 hinv hw h
    simp only [client_t.run] at h
    cases hs : c.step e with
    | none => simp [hs] at h
    | some c2 =>
      simp only [hs] at h
      have hfr := step_full_region c c2 e hs
      have hinv2 := step_threshold_inv c c2 e hinv (hw e (List.mem_cons_self _ _)) hs
      have := ih c2 c1 hinv2
        (fun x hx => by rw [hfr]; exact hw x (List.mem_cons_of_mem _ hx)) h
      exact ⟨this.1.trans hfr, this.2⟩

omit [backfill_item_like K I] [backfill_item_like K P] in
theorem init_threshold_inv (full_region : region_t K)
    (common_version : region_map_t K state_timestamp_t)
    (hregion : right_bound_t.key full_region.inner.left ≤ full_region.inner.right) :
    (client_t.init full_region common_version : client_t K I P).threshold_inv :=
  ⟨hregion, fun s hs => by simp [client_t.init] at hs⟩

/-- Outside `begin_session`, a step never moves the threshold of the session left. -/
theorem step_threshold_mono (c c1 : client_t K I P) (e : event K I P)
    (s s1 : session_t K) (h : c.step e = some c1)
    (hs : c.current_session = some s) (hs1 : c1.current_session = some s1)
    (hnb : ∀ t, e ≠ event.begin_session t) : s.threshold ≤ s1.threshold := by
  cases e with
  | begin_session t => exact absurd rfl (hnb t)
  | end_session =>
    simp only [client_t.step, client_t.on_end_session] at h
    split at h
    · rw [← Option.some.inj h] at hs1
      simp at hs1
    · simp at h
  | pre_items chunk =>
    simp only [client_t.step, Option.some.injEq] at h
    rw [← h] at hs1
    simp only [client_t.on_pre_items, hs, Option.map_some', Option.some.injEq] at hs1
    rw [← hs1]
    unfold session_t.on_pre_items
    split <;> exact le_refl _
  | ack_items n =>
    simp only [client_t.step, client_t.on_ack_items] at h
    split at h
    · rw [← Option.some.inj h] at hs1
      simp only [hs, Option.some.injEq] at hs1
      rw [hs1]
    · simp at h
  | pump store =>
    simp only [client_t.step] at h
    rcases pump_cases c c1 store h with h1 | ⟨s0, hcs, -, h1⟩
    · rw [h1, hs] at hs1
      rw [Option.some.inj hs1]
    · rw [hs] at hcs
      have hss := Option.some.inj hcs
      subst hss
      obtain ⟨tk, fr, pre, -, hfr, -, h2⟩ := run_iteration_cases _ _ _ _ h1
      rcases h2 with h2 | h2 | ⟨-, h2⟩
      · rw [h2] at hs1
        simp only [Option.some.injEq] at hs1
        rw [← hs1]
      · rw [h2] at hs1
        simp only [Option.some.injEq] at hs1
        rw [← hs1]
      · rw [h2] at hs1
        simp only [Option.some.injEq] at hs1
        rw [← hs1]
        exact (send_backfill_frame c _ _ fr hfr).2.2.1

omit [backfill_item_like K P] in
theorem store_call_within_unbounded (call : store_call K I P) :
    call.within right_bound_t.unbounded := by
  cases call <;> simp [store_call.within, right_bound_t.le_unbounded]

omit [backfill_item_like K P] in
theorem event_within_unbounded (e : event K I P) : e.within right_bound_t.unbounded := by
  cases e <;> simp [event.within, store_call_within_unbounded]

/-- C6 (amended). In every state reached from construction, for a region with
`full_region.inner.left <= full_region.inner.right` and a store that emits nothing
beyond `full_region.inner.right`, a current session has
`threshold <= pre_items.get_left_key() <= full_region.inner.right`. -/
theorem threshold_le_pre_items_left_key (full_region : region_t K)
    (common_version : region_map_t K state_timestamp_t)
    (hregion : right_bound_t.key full_region.inner.left ≤ full_region.inner.right)
    (events : List (event K I P))
    (hw : ∀ e ∈ events, e.within full_region.inner.right)
    (c : client_t K I P)
    (hrun : (client_t.init full_region common_version).run events = some c)
    (s : session_t K) (hs : c.current_session = some s) :
    s.threshold ≤ c.pre_items.get_left_key ∧
    c.pre_items.get_left_key ≤ full_region.inner.right ∧
    s.threshold ≤ full_region.inner.right := by
  obtain ⟨hfr, hl, hth⟩ := run_threshold_inv events _ c
    (init_threshold_inv full_region common_version hregion) hw hrun
  have hfr' : c.full_region.inner.right = full_region.inner.right := by rw [hfr]; rfl
  rw [hfr'] at hl
  exact ⟨hth s hs, hl, le_trans (hth s hs) hl⟩

/-- C5 (amended). In every state reached from construction (region with
`left <= right`, store emitting nothing beyond `full_region.inner.right`), after any
further accepted event: the threshold of the session is at most
`full_region.inner.right`; if the event is not `begin_session` and a session was
current before, the threshold is not smaller than before; if the event is
`begin_session(t)`, the new threshold is `t`, and `t <= pre_items.get_left_key()`. -/
theorem threshold_monotone_within_session (full_region : region_t K)
    (common_version : region_map_t K state_timestamp_t)
    (hregion : right_bound_t.key full_region.inner.left ≤ full_region.inner.right)
    (events : List (event K I P)) (e : event K I P)
    (hw : ∀ x ∈ events ++ [e], x.within full_region.inner.right)
    (c c1 : client_t K I P)
    (hrun : (client_t.init full_region common_version).run events = some c)
    (hstep : c.step e = some c1) (s1 : session_t K) (hs1 : c1.current_session = some s1) :
    s1.threshold ≤ full_region.inner.right ∧
    (∀ s, c.current_session = some s → (∀ t, e ≠ event.begin_session t) →
      s.threshold ≤ s1.threshold) ∧
    (∀ t, e = event.begin_session t →
      s1.threshold = t ∧ t ≤ c.pre_items.get_left_key) := by
  obtain ⟨hfr, hinv⟩ := run_threshold_inv events _ c
    (init_threshold_inv full_region common_version hregion)
    (fun x hx => hw x (List.mem_append_left _ hx)) hrun
  have hfr' : c.full_region.inner.right = full_region.inner.right := by rw [hfr]; rfl
  have hwe : e.within c.full_region.inner.right := by
    rw [hfr']; exact hw e (List.mem_append_right _ (List.mem_singleton_self e))
  obtain ⟨hl1, hth1⟩ := step_threshold_inv c c1 e hinv hwe hstep
  have hfr1 : c1.full_region.inner.right = full_region.inner.right := by
    rw [step_full_region c c1 e hstep]; exact hfr'
  rw [hfr1] at hl1
  refine ⟨le_trans (hth1 s1 hs1) hl1, ?_, ?_⟩
  · intro s hs hnb
    exact step_threshold_mono c c1 e s s1 hstep hs hs1 hnb
  · intro t ht
    subst ht
    simp only [client_t.step, client_t.on_begin_session] at hstep
    split at hstep
    · rename_i hle
      rw [← Option.some.inj hstep] at hs1
      simp only [Option.some.injEq] at hs1
      rw [← hs1]
      exact ⟨rfl, hle⟩
    · simp at hstep

end Invariant

/-- C6 (counterexample). After a session has shipped `[0, 5)` and been ended,
`begin_session(3)` is accepted; in the resulting state `pre_items.get_left_key()` is
`5` and the threshold is `3`, so `pre_items.get_left_key() <= threshold` fails. -/
theorem pre_items_left_key_above_threshold :
    ¬ (∀ (c : client_t Nat sample_item_t sample_item_t) (s : session_t Nat),
        sample_client.run (sample_resume 3) = some c → c.current_session = some s →
        c.pre_items.get_left_key ≤ s.threshold ∧
          s.threshold ≤ c.full_region.inner.right) := by
  intro h
  obtain ⟨c, hc⟩ := Option.isSome_iff_exists.mp
    (show (sample_client.run (sample_resume 3)).isSome = true by decide)
  have hv : (sample_client.run (sample_resume 3)).map
      (fun c => (c.pre_items.get_left_key, c.current_session)) =
      some (right_bound_t.key 5, some (session_t.init (right_bound_t.key 3))) := by decide
  rw [hc] at hv
  simp only [Option.map_some', Option.some.injEq, Prod.mk.injEq] at hv
  have := (h c _ hc hv.2).1
  rw [hv.1] at this
  exact absurd this (by decide)

/-- Evaluation of C6 (amended) on the same run: there `threshold = 3 <= 5 =
pre_items.get_left_key()`. -/
theorem threshold_le_pre_items_left_key_witness :
    right_bound_t.key sample_region.inner.left ≤ sample_region.inner.right ∧
    ∃ c s, sample_client.run (sample_resume 3) = some c ∧ c.current_session = some s ∧
      s.threshold ≤ c.pre_items.get_left_key ∧
      c.pre_items.get_left_key ≤ sample_region.inner.right ∧
      s.threshold ≤ sample_region.inner.right := by
  refine ⟨by decide, ?_⟩
  obtain ⟨c, hc⟩ := Option.isSome_iff_exists.mp
    (show (sample_client.run (sample_resume 3)).isSome = true by decide)
  have hv : (sample_client.run (sample_resume 3)).map (fun c => c.current_session) =
      some (some (session_t.init (right_bound_t.key 3))) := by decide
  rw [hc] at hv
  simp only [Option.map_some', Option.some.injEq] at hv
  exact ⟨c, _, hc, hv,
    threshold_le_pre_items_left_key sample_region region_map_t.empty (by decide)
      (sample_resume 3) (fun e _ => event_within_unbounded e) c hc _ hv⟩

/-- C5 (counterexample). The thresholds assigned along the run `sample_resume 2` are
`0`, `5`, `2`: the accepted `begin_session(2)` assigns a threshold below the previous
one. -/
theorem threshold_decreases_on_begin_session :
    (sample_client.run (sample_resume 2)).isSome = true ∧
    threshold_log sample_client (sample_resume 2) =
      [right_bound_t.key 0, right_bound_t.key 5, right_bound_t.key 2] ∧
    ¬ List.Chain' (fun a b => a ≤ b) (threshold_log sample_client (sample_resume 2)) := by
  have h : threshold_log sample_client (sample_resume 2) =
      [right_bound_t.key 0, right_bound_t.key 5, right_bound_t.key 2] := by decide
  refine ⟨by decide, h, ?_⟩
  rw [h]
  intro hch
  have h2 := (List.chain'_cons.mp (List.chain'_cons.mp hch).2).1
  exact absurd h2 (by decide)

/-- Evaluation of C5 (amended): in the run `sample_resume 2`, the pump iteration moves
the threshold from `0` to `5`. -/
theorem threshold_monotone_within_session_witness :
    right_bound_t.key sample_region.inner.left ≤ sample_region.inner.right ∧
    ∃ c c1 s s1,
      sample_client.run [event.pre_items sample_pre_items,
        event.begin_session (right_bound_t.key 0)] = some c ∧
      c.step (event.pump sample_store) = some c1 ∧
      c.current_session = some s ∧ c1.current_session = some s1 ∧
      s1.threshold ≤ sample_region.inner.right ∧ s.threshold ≤ s1.threshold := by
  refine ⟨by decide, ?_⟩
  obtain ⟨c, hc⟩ := Option.isSome_iff_exists.mp
    (show (sample_client.run [event.pre_items sample_pre_items,
      event.begin_session (right_bound_t.key 0)]).isSome = true by decide)
  have hv : (sample_client.run [event.pre_items sample_pre_items,
      event.begin_session (right_bound_t.key 0)]).map (fun c => c.current_session) =
      some (some (session_t.init (right_bound_t.key 0))) := by decide
  rw [hc] at hv
  simp only [Option.map_some', Option.some.injEq] at hv
  obtain ⟨c1, hc1⟩ := Option.isSome_iff_exists.mp
    (show (c.step (event.pump sample_store)).isSome = true by
      have := Option.some.inj (hc.symm.trans rfl)
      rw [this]; decide)
  have hv1 : (c.step (event.pump sample_store)).map (fun c => c.current_session) =
      some (some { session_t.init (right_bound_t.key 5) with
        threshold := right_bound_t.key 5 }) := by
    have := Option.some.inj (hc.symm.trans rfl)
    rw [this]; decide
  rw [hc1] at hv1
  simp only [Option.map_some', Option.some.injEq] at hv1
  have hthm := threshold_monotone_within_session sample_region region_map_t.empty
    (by decide) _ (event.pump sample_store) (fun e _ => event_within_unbounded e)
    c c1 hc hc1 _ hv1
  exact ⟨c, c1, _, _, hc, hc1, hv, hv1, hthm.1,
    hthm.2.1 _ hv (fun t ht => by cases ht)⟩

section Window

variable {K : Type} [LinearOrder K] {I P : Type}
variable [backfill_item_like K I] [backfill_item_like K P]

theorem to_int64_of_lt (n : Nat) (h : n < 2 ^ 63) : to_int64 n = (n : Int) := by
  unfold to_int64 WORD
  have h1 : n % 2 ^ 64 = n := Nat.mod_eq_of_lt (by omega)
  rw [h1, if_pos h]

omit [LinearOrder K] [backfill_item_like K I] [backfill_item_like K P] in
theorem on_ack_items_fair (c c1 : client_t K I P) (n : Nat)
    (h0 : 0 ≤ c.item_throttler_acq) (hub : c.item_throttler_acq < 2 ^ 63)
    (hn : (n : Int) ≤ c.item_throttler_acq) (h : c.on_ack_items n = some c1) :
    c1.item_throttler_acq = c.item_throttler_acq - n ∧ c1.sent = c.sent ∧
      c1.full_region = c.full_region := by
  unfold client_t.on_ack_items at h
  split at h
  · rw [← Option.some.inj h]
    refine ⟨?_, rfl, rfl⟩
    simp only
    obtain ⟨k, hk⟩ := Int.eq_ofNat_of_zero_le h0
    rw [hk] at hn hub ⊢
    have hn' : n ≤ k := by exact_mod_cast hn
    have hk' : k < 2 ^ 63 := by exact_mod_cast hub
    have hsz : to_size_t (k : Int) = k := by
      unfold to_size_t WORD
      have : ((k : Int) % ((2 ^ 64 : Nat) : Int)) = ((k % 2 ^ 64 : Nat) : Int) := by
        exact_mod_cast rfl
      rw [this, Int.toNat_ofNat]
      exact Nat.mod_eq_of_lt (by omega)
    rw [hsz]
    have hmod : (k + WORD - n % WORD) % WORD = k - n := by
      unfold WORD
      have h1 : n % 2 ^ 64 = n := Nat.mod_eq_of_lt (by omega)
      rw [h1]
      have h2 : k + 2 ^ 64 - n = (k - n) + 2 ^ 64 := by omega
      rw [h2, Nat.add_mod_right]
      exact Nat.mod_eq_of_lt (by omega)
    rw [hmod, to_int64_of_lt _ (by omega)]
    omega
  · simp at h

omit [LinearOrder K] in
theorem raw_size_eq (chunk : backfill_item_seq_t K I)
    (h : (chunk.items.map (backfill_item_like.get_mem_size K)).sum < WORD) :
    chunk.get_mem_size = (chunk.items.map (backfill_item_like.get_mem_size K)).sum := by
  unfold backfill_item_seq_t.get_mem_size
  exact Nat.mod_eq_of_lt h

theorem step_chunk_size (S : Nat) (hS : ITEM_CHUNK_SIZE + S ≤ 2 ^ 63)
    (fr fr1 : backfill_frame K I P) (call : store_call K I P) (r : continue_bool_t)
    (h : fr.step call = some (fr1, r)) (hsz : call.item_size_le S)
    (h0 : (fr.consumer.chunk.items.map (backfill_item_like.get_mem_size K)).sum
      < ITEM_CHUNK_SIZE) :
    (fr1.consumer.chunk.items.map (backfill_item_like.get_mem_size K)).sum
        < ITEM_CHUNK_SIZE + S ∧
    (r = continue_bool_t.CONTINUE →
      (fr1.consumer.chunk.items.map (backfill_item_like.get_mem_size K)).sum
        < ITEM_CHUNK_SIZE) := by
  cases call with
  | next_pre_item =>
    simp only [backfill_frame.step, Option.some.injEq, Prod.mk.injEq] at h
    rw [← h.1]
    exact ⟨by simp only; omega, fun _ => h0⟩
  | release_pre_item =>
    simp only [backfill_frame.step] at h
    split at h
    · cases hp : fr.producer.release_pre_item with
      | none => simp [hp] at h
      | some p =>
        simp only [hp, Option.some.injEq, Prod.mk.injEq] at h
        rw [← h.1]
        exact ⟨by simp only; omega, fun _ => h0⟩
    · simp at h
  | on_item mi item =>
    simp only [backfill_frame.step] at h
    cases hc : fr.consumer.on_item mi item with
    | none => simp [hc] at h
    | some cr =>
      obtain ⟨c, r1⟩ := cr
      simp only [hc, Option.some.injEq, Prod.mk.injEq] at h
      rw [← h.1, ← h.2]
      unfold consumer_t.on_item at hc
      simp only at hc
      split at hc
      · simp at hc
      · split at hc
        · simp at hc
        · split at hc
          · simp at hc
          · simp only [Option.some.injEq, Prod.mk.injEq] at hc
            obtain ⟨hc1, hc2⟩ := hc
            rw [← hc1]
            have hsum : (((fr.consumer.chunk.push_back item).items.map
                (backfill_item_like.get_mem_size K)).sum) =
                (fr.consumer.chunk.items.map (backfill_item_like.get_mem_size K)).sum
                  + backfill_item_like.get_mem_size K item := by
              simp [backfill_item_seq_t.push_back]
            have hle : backfill_item_like.get_mem_size K item ≤ S := hsz
            refine ⟨by simp only; rw [hsum]; omega, ?_⟩
            intro hr
            simp only
            rw [← hc2] at hr
            by_cases hlt : (fr.consumer.chunk.push_back item).get_mem_size < ITEM_CHUNK_SIZE
            · rw [raw_size_eq _ (by rw [hsum]; unfold WORD; omega)] at hlt
              exact hlt
            · simp [hlt] at hr
  | on_empty_range mi b =>
    simp only [backfill_frame.step] at h
    cases hc : fr.consumer.on_empty_range mi b with
    | none => simp [hc] at h
    | some cr =>
      obtain ⟨c, r1⟩ := cr
      simp only [hc, Option.some.injEq, Prod.mk.injEq] at h
      rw [← h.1]
      unfold consumer_t.on_empty_range at hc
      split at hc
      · simp at hc
      · split at hc
        · simp only [Option.some.injEq, Prod.mk.injEq] at hc
          rw [← hc.1]
          exact ⟨by simp only; omega, fun _ => h0⟩
        · split at hc
          · simp at hc
          · simp only [Option.some.injEq, Prod.mk.injEq] at hc
            rw [← hc.1]
            exact ⟨by simp only [backfill_item_seq_t.push_back_nothing]; omega,
              fun _ => h0⟩
  | pre_items_arrive chunk =>
    simp only [backfill_frame.step, Option.some.injEq, Prod.mk.injEq] at h
    rw [← h.1]
    exact ⟨by simp only; omega, fun _ => h0⟩

theorem send_backfill_chunk_size (S : Nat) (hS : ITEM_CHUNK_SIZE + S ≤ 2 ^ 63)
    (calls : List (store_call K I P)) :
    ∀ (fr fr1 : backfill_frame K I P), send_backfill fr calls = some fr1 →
      (∀ call ∈ calls, call.item_size_le S) →
      (fr.consumer.chunk.items.map (backfill_item_like.get_mem_size K)).sum
        < ITEM_CHUNK_SIZE →
      (fr1.consumer.chunk.items.map (backfill_item_like.get_mem_size K)).sum
        < ITEM_CHUNK_SIZE + S := by
  induction calls with
  | nil =>
    intro fr fr1 h _ h0
    simp only [send_backfill, Option.some.injEq] at h
    subst h
    omega
  | cons call rest ih =>
    intro fr fr1 h hsz h0
    simp only [send_backfill] at h
    cases hs : fr.step call with
    | none => simp [hs] at h
    | some res =>
      obtain ⟨fr2, r⟩ := res
      have h2 := step_chunk_size S hS fr fr2 call r hs (hsz call (List.mem_cons_self _ _)) h0
      cases r with
      | CONTINUE =>
        simp only [hs] at h
        exact ih fr2 fr1 h (fun x hx => hsz x (List.mem_cons_of_mem _ hx)) (h2.2 rfl)
      | ABORT =>
        simp only [hs, Option.some.injEq] at h
        subst h
        exact h2.1

omit [LinearOrder K] in
theorem items_sent_size_append (a b : List (message K I)) :
    items_sent_size (a ++ b) = items_sent_size a + items_sent_size b := by
  induction a with
  | nil => simp [items_sent_size]
  | cons m rest ih =>
    cases m <;> simp [items_sent_size, ih]
    omega

omit [backfill_item_like K I] [backfill_item_like K P] in
theorem pump_ready_room (c : client_t K I P) (s : session_t K) (h : pump_ready c s = true) :
    c.item_throttler_acq + (ITEM_CHUNK_SIZE : Int) ≤ (ITEM_PIPELINE_SIZE : Int) := by
  simp only [pump_ready, acquisition_granted, Bool.and_eq_true, decide_eq_true_eq] at h
  exact h.2

/-- Effect of one fair event on the in-flight count and on the bytes sent. -/
theorem step_window (S : Nat) (hS : ITEM_PIPELINE_SIZE + S ≤ 2 ^ 63)
    (c c1 : client_t K I P) (e : event K I P)
    (hfair : e.fair S c) (h : c.step e = some c1)
    (h0 : 0 ≤ c.item_throttler_acq)
    (hub : c.item_throttler_acq ≤ (ITEM_PIPELINE_SIZE : Int) + (S : Int) - 1) :
    0 ≤ c1.item_throttler_acq ∧
    c1.item_throttler_acq ≤ (ITEM_PIPELINE_SIZE : Int) + (S : Int) - 1 ∧
    c1.item_throttler_acq - items_sent_size c1.sent =
      c.item_throttler_acq - items_sent_size c.sent - acked_size [e] := by
  have hchunk : ITEM_CHUNK_SIZE = 102400 := by decide
  have hpipe : ITEM_PIPELINE_SIZE = 4194304 := by decide
  cases e with
  | begin_session t =>
    simp only [client_t.step, client_t.on_begin_session] at h
    split at h
    · rw [← Option.some.inj h]
      exact ⟨h0, hub, by simp [acked_size]⟩
    · simp at h
  | end_session =>
    simp only [client_t.step, client_t.on_end_session] at h
    split at h
    · rw [← Option.some.inj h]
      refine ⟨h0, hub, ?_⟩
      simp [acked_size, items_sent_size_append, items_sent_size]
    · simp at h
  | pre_items chunk =>
    simp only [client_t.step, Option.some.injEq] at h
    rw [← h]
    exact ⟨h0, hub, by simp [acked_size, client_t.on_pre_items]⟩
  | ack_items n =>
    simp only [client_t.step] at h
    have hn : (n : Int) ≤ c.item_throttler_acq := hfair
    have hlt : c.item_throttler_acq < 2 ^ 63 := by
      have : ((ITEM_PIPELINE_SIZE + S : Nat) : Int) ≤ ((2 ^ 63 : Nat) : Int) := by
        exact_mod_cast hS
      push_cast at this
      omega
    obtain ⟨hc, hsent, -⟩ := on_ack_items_fair c c1 n h0 hlt hn h
    rw [hc, hsent]
    refine ⟨by omega, by omega, ?_⟩
    simp [acked_size]
    omega
  | pump store =>
    simp only [client_t.step] at h
    rcases pump_cases c c1 store h with h1 | ⟨s, -, hready, h1⟩
    · rw [h1]
      exact ⟨h0, hub, by simp [acked_size]⟩
    · have hroom := pump_ready_room c s hready
      obtain ⟨tk, fr, pre, -, hfr, -, h2⟩ := run_iteration_cases _ _ _ _ h1
      rcases h2 with h2 | h2 | ⟨-, h2⟩
      · rw [h2]
        exact ⟨h0, hub, by simp [acked_size]⟩
      · rw [h2]
        exact ⟨h0, hub, by simp [acked_size]⟩
      · have hS' : ITEM_CHUNK_SIZE + S ≤ 2 ^ 63 := by omega
        have hraw := send_backfill_chunk_size S hS' _ _ fr hfr (hfair _)
          (by simp [backfill_frame.init, backfill_item_seq_t.init, hchunk])
        have hsz := raw_size_eq fr.consumer.chunk (by unfold WORD; omega)
        have hlt : fr.consumer.chunk.get_mem_size < ITEM_CHUNK_SIZE + S := by
          rw [hsz]; exact hraw
        have hconv := to_int64_of_lt fr.consumer.chunk.get_mem_size (by omega)
        rw [h2]
        simp only [hconv, items_sent_size_append, items_sent_size, acked_size]
        have hlt' : (fr.consumer.chunk.get_mem_size : Int) <
            (ITEM_CHUNK_SIZE : Int) + (S : Int) := by exact_mod_cast hlt
        refine ⟨by omega, by omega, by omega⟩

/-- Along a fair run the in-flight count stays within `[0, ITEM_PIPELINE_SIZE + S - 1]`
and equals the bytes sent minus the bytes acknowledged. -/
theorem run_window (S : Nat) (hS : ITEM_PIPELINE_SIZE + S ≤ 2 ^ 63)
    (events : List (event K I P)) :
    ∀ (c c1 : client_t K I P), fair_run S c events → c.run events = some c1 →
      0 ≤ c.item_throttler_acq →
      c.item_throttler_acq ≤ (ITEM_PIPELINE_SIZE : Int) + (S : Int) - 1 →
      0 ≤ c1.item_throttler_acq ∧
      c1.item_throttler_acq ≤ (ITEM_PIPELINE_SIZE : Int) + (S : Int) - 1 ∧
      c1.item_throttler_acq - items_sent_size c1.sent =
        c.item_throttler_acq - items_sent_size c.sent - acked_size events := by
  induction events with
  | nil =>
    intro c c1 _ h h0 hub
    simp only [client_t.run, Option.some.injEq] at h
    subst h
    exact ⟨h0, hub, by simp [acked_size]⟩
  | cons e rest ih =>
    intro c c1 hfair h h0 hub
    simp only [client_t.run] at h
    cases hs : c.step e with
    | none => simp [hs] at h
    | some c2 =>
      simp only [hs] at h
      simp only [fair_run, hs] at hfair
      obtain ⟨a1, a2, a3⟩ := step_window S hS c c2 e hfair.1 hs h0 hub
      obtain ⟨b1, b2, b3⟩ := ih c2 c1 hfair.2 h a1 a2
      refine ⟨b1, b2, ?_⟩
      rw [b3, a3]
      have : acked_size (e :: rest) = acked_size [e] + acked_size rest := by
        cases e <;> simp [acked_size]
      rw [this]
      omega

omit [LinearOrder K] [backfill_item_like K P] in
theorem init_window (full_region : region_t K)
    (common_version : region_map_t K state_timestamp_t) :
    (client_t.init full_region common_version : client_t K I P).item_throttler_acq = 0 ∧
    items_sent_size (client_t.init full_region common_version : client_t K I P).sent = 0 :=
  ⟨rfl, rfl⟩

/-- Along a fair run from construction the in-flight count is the sum of the sizes of
the chunks sent minus the sum of the sizes acknowledged. -/
theorem in_flight_eq_sent_minus_acked_of_fair (full_region : region_t K)
    (common_version : region_map_t K state_timestamp_t)
    (S : Nat) (hS : ITEM_PIPELINE_SIZE + S ≤ 2 ^ 63)
    (events : List (event K I P))
    (hfair : fair_run S (client_t.init full_region common_version) events)
    (c : client_t K I P)
    (hrun : (client_t.init full_region common_version).run events = some c) :
    c.item_throttler_acq = items_sent_size c.sent - acked_size events := by
  obtain ⟨hc, hs⟩ := init_window (I := I) (P := P) full_region common_version
  have hpipe : ITEM_PIPELINE_SIZE = 4194304 := by decide
  obtain ⟨-, -, h3⟩ := run_window S hS events _ c hfair hrun (by rw [hc])
    (by rw [hc, hpipe]; push_cast; omega)
  rw [hc, hs] at h3
  omega

/-- C4 (amended). Along a run from construction in which every `ack_items(n)` has
`n` at most the in-flight count and every item handed over by the store has
`get_mem_size() <= S` (with `ITEM_PIPELINE_SIZE + S <= 2^63`), the in-flight count
stays within `0 <= in_flight <= ITEM_PIPELINE_SIZE + S - 1`; so it is at most
`ITEM_PIPELINE_SIZE + ITEM_CHUNK_SIZE` when no item is larger than
`ITEM_CHUNK_SIZE + 1` bytes. -/
theorem in_flight_bounded_by_item_size (full_region : region_t K)
    (common_version : region_map_t K state_timestamp_t)
    (S : Nat) (hS : ITEM_PIPELINE_SIZE + S ≤ 2 ^ 63)
    (events : List (event K I P))
    (hfair : fair_run S (client_t.init full_region common_version) events)
    (c : client_t K I P)
    (hrun : (client_t.init full_region common_version).run events = some c) :
    0 ≤ c.item_throttler_acq ∧
    c.item_throttler_acq ≤ (ITEM_PIPELINE_SIZE : Int) + (S : Int) - 1 ∧
    (S ≤ ITEM_CHUNK_SIZE + 1 →
      c.item_throttler_acq ≤ (ITEM_PIPELINE_SIZE : Int) + (ITEM_CHUNK_SIZE : Int)) := by
  obtain ⟨hc, -⟩ := init_window (I := I) (P := P) full_region common_version
  have hpipe : ITEM_PIPELINE_SIZE = 4194304 := by decide
  obtain ⟨h1, h2, -⟩ := run_window S hS events _ c hfair hrun (by rw [hc])
    (by rw [hc, hpipe]; push_cast; omega)
  refine ⟨h1, h2, ?_⟩
  intro hle
  have : (S : Int) ≤ (ITEM_CHUNK_SIZE : Int) + 1 := by exact_mod_cast hle
  omega

end Window

/-- C4 (counterexample). The store hands over one item of 5 MiB; the consumer stops
the chunk there, the chunk is committed, and the in-flight count is 5 MiB, above
`ITEM_PIPELINE_SIZE + ITEM_CHUNK_SIZE`. No `ack_items` is involved. -/
theorem in_flight_exceeds_window :
    ¬ (∀ (c : client_t Nat sample_item_t sample_item_t),
        sample_client.run sample_big_run = some c →
        c.item_throttler_acq ≤ (ITEM_PIPELINE_SIZE : Int) + (ITEM_CHUNK_SIZE : Int)) := by
  intro h
  obtain ⟨c, hc⟩ := Option.isSome_iff_exists.mp
    (show (sample_client.run sample_big_run).isSome = true by decide)
  have hv : (sample_client.run sample_big_run).map (fun c => c.item_throttler_acq) =
      some 5242880 := by decide
  rw [hc] at hv
  simp only [Option.map_some', Option.some.injEq] at hv
  have := h c hc
  rw [hv] at this
  exact absurd this (by decide)

/-- C3 (evaluation at the failing input). From construction, the single message
`ack_items(2^64 - 1)` is accepted; afterwards the in-flight count is `1`, although
nothing was sent and `2^64 - 1` bytes were acknowledged. -/
theorem in_flight_not_sent_minus_acked :
    (sample_client.run [event.ack_items (2 ^ 64 - 1)]).map
        (fun c => (c.item_throttler_acq, items_sent_size c.sent)) = some (1, 0) ∧
    acked_size [(event.ack_items (2 ^ 64 - 1) : event Nat sample_item_t sample_item_t)] =
      2 ^ 64 - 1 ∧
    (1 : Int) ≠ 0 - (2 ^ 64 - 1) := by
  refine ⟨by decide, by decide, by decide⟩

/-- Evaluation of C4 (amended): the run `sample_acked_run` ships 50 bytes and has them
acknowledged; with `S = 50` the bound applies. -/
theorem in_flight_bounded_by_item_size_witness :
    ITEM_PIPELINE_SIZE + 50 ≤ 2 ^ 63 ∧
    fair_run 50 sample_client sample_acked_run ∧
    ∃ c, sample_client.run sample_acked_run = some c ∧
      0 ≤ c.item_throttler_acq ∧
      c.item_throttler_acq ≤ (ITEM_PIPELINE_SIZE : Int) + ((50 : Nat) : Int) - 1 := by
  have hfair : fair_run 50 sample_client sample_acked_run := by
    refine ⟨trivial, trivial, ?_, ?_, trivial⟩
    · intro sp call hmem
      simp only [sample_store, List.mem_cons, List.mem_singleton, List.not_mem_nil,
        or_false] at hmem
      rcases hmem with h | h | h | h | h <;> subst h <;>
        simp [store_call.item_size_le, backfill_item_like.get_mem_size]
    · exact (by decide : ((50 : Nat) : Int) ≤ 50)
  obtain ⟨c, hc⟩ := Option.isSome_iff_exists.mp
    (show (sample_client.run sample_acked_run).isSome = true by decide)
  have h := in_flight_bounded_by_item_size sample_region region_map_t.empty 50
    (by decide) sample_acked_run hfair c hc
  exact ⟨by decide, hfair, c, hc, h.1, h.2.1⟩

section Completeness

variable {K : Type} [LinearOrder K] {I P : Type}
variable [backfill_item_like K I] [backfill_item_like K P]

end Completeness

theorem sample_client_resumed_run :
    sample_client.run (sample_resume 5) = some sample_client_resumed := rfl

section Metainfo

variable {K : Type} [LinearOrder K] {I P : Type}
variable [backfill_item_like K I] [backfill_item_like K P]

omit [backfill_item_like K I] in
theorem covers_iff (chunk : backfill_item_seq_t K I) (h : Nat) (k : K) :
    chunk.covers h k = true ↔
      chunk.beg_hash ≤ h ∧ h < chunk.end_hash ∧ chunk.left_key ≤ right_bound_t.key k ∧
        right_bound_t.key k < chunk.right_key := by
  simp only [backfill_item_seq_t.covers, Bool.and_eq_true, decide_eq_true_eq]
  tauto

theorem contains_iff (r : region_t K) (h : Nat) (k : K) :
    r.contains h k = true ↔
      r.beg ≤ h ∧ h < r.end_ ∧ right_bound_t.key r.inner.left ≤ right_bound_t.key k ∧
        right_bound_t.key k < r.inner.right := by
  simp only [region_t.contains, key_range_t.contains_key, Bool.and_eq_true,
    decide_eq_true_eq, right_bound_t.key_le_key]
  tauto

omit [backfill_item_like K I] in
theorem extend_matches (c : consumer_t K I) (mi : region_map_t K version_t)
    (right : right_bound_t K) (rk : K) (chunk1 : backfill_item_seq_t K I)
    (hrk : c.chunk.get_right_key = right_bound_t.key rk)
    (hlt : right_bound_t.key rk < right)
    (hcov : c.covered_by mi right) (hD : metainfo_matches c)
    (hb : chunk1.beg_hash = c.chunk.beg_hash) (he : chunk1.end_hash = c.chunk.end_hash)
    (hl : chunk1.left_key = c.chunk.left_key) (hr : chunk1.right_key = right) :
    metainfo_matches
      { chunk := chunk1
        metainfo := c.metainfo.concat (mi.mask
          { beg := c.chunk.get_beg_hash, end_ := c.chunk.get_end_hash,
            inner := { left := rk, right := right } }) } := by
  obtain ⟨hle, hdom⟩ := hD
  have hrk' : c.chunk.right_key = right_bound_t.key rk := hrk
  rw [hrk'] at hle
  refine ⟨?_, ?_⟩
  · show chunk1.left_key ≤ chunk1.right_key
    rw [hl, hr]
    exact le_trans hle (le_of_lt hlt)
  · intro h k
    have hold := hdom h k
    have hmask := hcov rk hrk h k
    rw [covers_iff] at hold ⊢
    rw [contains_iff] at hmask
    simp only [backfill_item_seq_t.get_beg_hash, backfill_item_seq_t.get_end_hash] at hmask
    rw [hb, he, hl, hr]
    rw [hrk'] at hold
    show ((c.metainfo.concat (mi.mask _)) h k).isSome = true ↔ _
    simp only [region_map_t.concat, region_map_t.mask]
    cases hm : c.metainfo h k with
    | some v =>
      simp only [Option.isSome_some, true_iff]
      obtain ⟨a, b, c2, d⟩ := hold.mp (by simp [hm])
      exact ⟨a, b, c2, lt_trans d hlt⟩
    | none =>
      have hno : ¬ (c.chunk.beg_hash ≤ h ∧ h < c.chunk.end_hash ∧
          c.chunk.left_key ≤ right_bound_t.key k ∧
          right_bound_t.key k < right_bound_t.key rk) := by
        intro hc
        have := hold.mpr hc
        simp [hm] at this
      by_cases hcont : region_t.contains
          { beg := c.chunk.get_beg_hash, end_ := c.chunk.get_end_hash,
            inner := { left := rk, right := right } } h k = true
      · simp only [hcont, if_true]
        have hc2 := (contains_iff _ h k).mp hcont
        simp only [backfill_item_seq_t.get_beg_hash, backfill_item_seq_t.get_end_hash] at hc2
        constructor
        · intro _
          exact ⟨hc2.1, hc2.2.1, le_trans hle hc2.2.2.1, hc2.2.2.2⟩
        · intro _
          exact hmask hc2
      · simp only [hcont, Bool.false_eq_true, if_false, Option.isSome_none, false_iff]
        rintro ⟨a, b, c2, d⟩
        by_cases hk : right_bound_t.key k < right_bound_t.key rk
        · exact hno ⟨a, b, c2, hk⟩
        · apply hcont
          rw [contains_iff]
          exact ⟨a, b, not_lt.mp hk, d⟩

theorem on_item_matches (c c1 : consumer_t K I) (mi : region_map_t K version_t) (item : I)
    (r : continue_bool_t) (h : c.on_item mi item = some (c1, r))
    (hcov : c.covered_by mi (backfill_item_like.get_range item : key_range_t K).right)
    (hD : metainfo_matches c) : metainfo_matches c1 := by
  unfold consumer_t.on_item at h
  simp only at h
  split at h
  · simp at h
  · rename_i h1
    split at h
    · simp at h
    · rename_i h2
      split at h
      · simp at h
      · rename_i rk hrk
        simp only [Option.some.injEq, Prod.mk.injEq] at h
        rw [← h.1]
        have h1' : c.chunk.get_right_key ≤
            right_bound_t.key (backfill_item_like.get_range item : key_range_t K).left := by
          simpa using h1
        have h2' : right_bound_t.key (backfill_item_like.get_range item : key_range_t K).left <
            (backfill_item_like.get_range item : key_range_t K).right := by
          simpa [key_range_t.is_empty] using h2
        rw [hrk] at h1'
        exact extend_matches c mi _ rk _ hrk (lt_of_le_of_lt h1' h2') hcov hD rfl rfl rfl rfl

omit [backfill_item_like K I] in
theorem on_empty_range_matches (c c1 : consumer_t K I) (mi : region_map_t K version_t)
    (b : right_bound_t K) (r : continue_bool_t)
    (h : c.on_empty_range mi b = some (c1, r))
    (hcov : c.covered_by mi b) (hD : metainfo_matches c) : metainfo_matches c1 := by
  unfold consumer_t.on_empty_range at h
  split at h
  · simp at h
  · rename_i h1
    split at h
    · simp only [Option.some.injEq, Prod.mk.injEq] at h
      rw [← h.1]
      exact hD
    · rename_i h2
      split at h
      · simp at h
      · rename_i rk hrk
        simp only [Option.some.injEq, Prod.mk.injEq] at h
        rw [← h.1]
        have h1' : c.chunk.get_right_key ≤ b := by simpa using h1
        have hlt : right_bound_t.key rk < b := by
          rw [← hrk]
          exact lt_of_le_of_ne h1' h2
        exact extend_matches c mi b rk _ hrk hlt hcov hD rfl rfl rfl rfl

theorem step_matches (fr fr1 : backfill_frame K I P) (call : store_call K I P)
    (r : continue_bool_t) (h : fr.step call = some (fr1, r))
    (hcov : fr.call_covered call) (hD : metainfo_matches fr.consumer) :
    metainfo_matches fr1.consumer := by
  cases call with
  | next_pre_item =>
    simp only [backfill_frame.step, Option.some.injEq, Prod.mk.injEq] at h
    rw [← h.1]; exact hD
  | release_pre_item =>
    simp only [backfill_frame.step] at h
    split at h
    · cases hp : fr.producer.release_pre_item with
      | none => simp [hp] at h
      | some p =>
        simp only [hp, Option.some.injEq, Prod.mk.injEq] at h
        rw [← h.1]; exact hD
    · simp at h
  | on_item mi item =>
    simp only [backfill_frame.step] at h
    cases hc : fr.consumer.on_item mi item with
    | none => simp [hc] at h
    | some cr =>
      obtain ⟨c, r1⟩ := cr
      simp only [hc, Option.some.injEq, Prod.mk.injEq] at h
      rw [← h.1]
      exact on_item_matches _ _ _ _ _ hc hcov hD
  | on_empty_range mi b =>
    simp only [backfill_frame.step] at h
    cases hc : fr.consumer.on_empty_range mi b with
    | none => simp [hc] at h
    | some cr =>
      obtain ⟨c, r1⟩ := cr
      simp only [hc, Option.some.injEq, Prod.mk.injEq] at h
      rw [← h.1]
      exact on_empty_range_matches _ _ _ _ _ hc hcov hD
  | pre_items_arrive chunk =>
    simp only [backfill_frame.step, Option.some.injEq, Prod.mk.injEq] at h
    rw [← h.1]; exact hD

theorem send_backfill_matches (calls : List (store_call K I P)) :
    ∀ (fr fr1 : backfill_frame K I P), send_backfill fr calls = some fr1 →
      calls_covered fr calls → metainfo_matches fr.consumer →
      metainfo_matches fr1.consumer := by
  induction calls with
  | nil =>
    intro fr fr1 h _ hD
    simp only [send_backfill, Option.some.injEq] at h
    subst h
    exact hD
  | cons call rest ih =>
    intro fr fr1 h hcov hD
    simp only [send_backfill] at h
    cases hs : fr.step call with
    | none => simp [hs] at h
    | some res =>
      obtain ⟨fr2, r⟩ := res
      simp only [calls_covered, hs] at hcov
      have h2 := step_matches fr fr2 call r hs hcov.1 hD
      cases r with
      | CONTINUE =>
        simp only [hs] at h
        exact ih fr2 fr1 h hcov.2 h2
      | ABORT =>
        simp only [hs, Option.some.injEq] at h
        subst h
        exact h2

omit [backfill_item_like K I] [backfill_item_like K P] in
theorem frame_init_matches (c : client_t K I P) (s : session_t K) :
    metainfo_matches (backfill_frame.init c s).consumer := by
  refine ⟨le_refl _, ?_⟩
  intro h k
  rw [covers_iff]
  simp only [backfill_frame.init, backfill_item_seq_t.init, region_map_t.empty,
    Option.isSome_none, Bool.false_eq_true, false_iff]
  rintro ⟨-, -, c2, d⟩
  exact absurd (lt_of_le_of_lt c2 d) (lt_irrefl _)

/-- C9 (amended). Let the store's calls satisfy the consumer's ordering assertions
and let each `on_item` / `on_empty_range` come with a metainfo defined on the whole
region the consumer masks it with. Then the iteration returns, the accumulated
metainfo is defined exactly on the chunk's region (the session's hash range, keys
`[chunk.get_left_key(), chunk.get_right_key())`), and if the chunk is committed it is
sent with that metainfo and afterwards `common_version` equals the timestamp of the
shipped metainfo at every point of that region and is unchanged at every other
point. -/
theorem chunk_metainfo_covers_chunk (c : client_t K I P) (s : session_t K)
    (store : store_view_t K I P) (tk : K)
    (hth : s.threshold = right_bound_t.key tk)
    (hok : calls_ok (backfill_frame.init c s) (store (start_point c tk)).calls = true)
    (hcov : calls_covered (backfill_frame.init c s) (store (start_point c tk)).calls)
    (hint : (store (start_point c tk)).interrupted = false) :
    ∃ fr c1,
      send_backfill (backfill_frame.init c s) (store (start_point c tk)).calls = some fr ∧
      session_t.run_iteration c s store = some c1 ∧
      fr.consumer.chunk.beg_hash = c.full_region.beg ∧
      fr.consumer.chunk.end_hash = c.full_region.end_ ∧
      (∀ h k, (fr.consumer.metainfo h k).isSome = fr.consumer.chunk.covers h k) ∧
      (fr.consumer.chunk.get_left_key ≠ fr.consumer.chunk.get_right_key →
        (∃ n, c1.sent = c.sent ++
          [message.items fr.consumer.metainfo fr.consumer.chunk, message.ack_pre_items n]) ∧
        ∀ h k,
          (fr.consumer.chunk.covers h k = true →
            (c1.common_version h k).isSome = true ∧
            c1.common_version h k =
              (fr.consumer.metainfo h k).map (fun v => v.timestamp)) ∧
          (fr.consumer.chunk.covers h k = false →
            c1.common_version h k = c.common_version h k)) := by
  obtain ⟨fr, hfr⟩ := calls_ok_send_backfill _ _ hok
  have hD := send_backfill_matches _ _ fr hfr hcov (frame_init_matches c s)
  obtain ⟨-, -, -, hb, he⟩ := send_backfill_frame c s _ fr hfr
  have hdom : ∀ h k, (fr.consumer.metainfo h k).isSome = fr.consumer.chunk.covers h k := by
    intro h k
    rw [Bool.eq_iff_iff]
    exact hD.2 h k
  by_cases hne : fr.consumer.chunk.get_left_key = fr.consumer.chunk.get_right_key
  · exact ⟨fr, _, hfr, run_iteration_skip c s store tk fr hth hfr hint hne, hb, he, hdom,
      fun h => absurd hne h⟩
  · refine ⟨fr, _, hfr, run_iteration_commit c s store tk fr hth hfr hint hne, hb, he, hdom,
      fun _ => ⟨⟨_, rfl⟩, ?_⟩⟩
    intro h k
    have hk := hdom h k
    show (_ → ((c.common_version.update _) h k).isSome = true ∧
        (c.common_version.update _) h k = _) ∧
      (_ → (c.common_version.update _) h k = _)
    simp only [region_map_t.update, region_map_t.transform]
    cases hm : fr.consumer.metainfo h k with
    | some v =>
      rw [hm] at hk
      simp only [Option.isSome_some] at hk
      simp [← hk]
    | none =>
      rw [hm] at hk
      simp only [Option.isSome_none] at hk
      simp [← hk]

end Metainfo

theorem sample_frame_uncovered_run :
    send_backfill (backfill_frame.init sample_client_hinted sample_session)
      (sample_store_uncovered (start_point sample_client_hinted 0)).calls =
      some sample_frame_uncovered := rfl

/-- C9 (counterexample). The store hands over the item `[0, 1)` with a metainfo that
is defined nowhere; the ordering assertions hold, the chunk `[0, 1)` is built and
committed, yet the accumulated metainfo is undefined at the point (hash `0`, key `0`)
of the chunk's region. -/
theorem metainfo_can_miss_chunk_region :
    ¬ (∀ (store : store_view_t Nat sample_item_t sample_item_t)
        (fr : backfill_frame Nat sample_item_t sample_item_t),
        calls_ok (backfill_frame.init sample_client_hinted sample_session)
          (store (start_point sample_client_hinted 0)).calls = true →
        send_backfill (backfill_frame.init sample_client_hinted sample_session)
          (store (start_point sample_client_hinted 0)).calls = some fr →
        ∀ h k, (fr.consumer.metainfo h k).isSome = fr.consumer.chunk.covers h k) := by
  intro h
  have h1 := h sample_store_uncovered sample_frame_uncovered (by decide)
    sample_frame_uncovered_run 0 0
  exact absurd h1 (by decide)

/-- Evaluation of C9 (amended): `sample_store` hands over `sample_metainfo`, defined
everywhere at timestamp `7`; after the commit of `[0, 5)`, `common_version` is `7` at
key `3` and still undefined at key `5`. -/
theorem chunk_metainfo_covers_chunk_witness :
    sample_session.threshold = right_bound_t.key 0 ∧
    calls_ok (backfill_frame.init sample_client_hinted sample_session)
      (sample_store (start_point sample_client_hinted 0)).calls = true ∧
    calls_covered (backfill_frame.init sample_client_hinted sample_session)
      (sample_store (start_point sample_client_hinted 0)).calls ∧
    ∃ c1, session_t.run_iteration sample_client_hinted sample_session sample_store = some c1 ∧
      c1.common_version 0 3 = some 7 ∧ c1.common_version 0 5 = none := by
  have hcov : calls_covered (backfill_frame.init sample_client_hinted sample_session)
      (sample_store (start_point sample_client_hinted 0)).calls := by
    refine ⟨trivial, ?_, trivial, trivial, ?_, trivial⟩
    · intro rk _ h k _
      rfl
    · intro rk _ h k _
      rfl
  refine ⟨rfl, by decide, hcov, ?_⟩
  obtain ⟨fr, c1, h1, h2, -, -, h3, h4⟩ := chunk_metainfo_covers_chunk sample_client_hinted
    sample_session sample_store 0 rfl (by decide) hcov rfl
  have hfr := Option.some.inj (h1.symm.trans rfl)
  have hne : fr.consumer.chunk.get_left_key ≠ fr.consumer.chunk.get_right_key := by
    rw [hfr]; decide
  obtain ⟨-, h5⟩ := h4 hne
  refine ⟨c1, h2, ?_, ?_⟩
  · have h6 := (h5 0 3).1 (by rw [hfr]; decide)
    rw [h6.2, hfr]
    rfl
  · have h6 := (h5 0 5).2 (by rw [hfr]; decide)
    rw [h6]
    rfl

end Backfiller
